import Mathlib

/-!
# A verification model of the `art` adaptive radix tree

This file gives a shallow embedding of the `art` package (an adaptive radix
tree with four inner-node variants `node4`/`node16`/`node48`/`node256`,
path compression, and an optimistic-lock based concurrent protocol), and
proves properties of its sequential behaviour.

Modelling conventions:

* Keys are byte strings, modelled as `List Nat` (well-formed trees carry
  bytes `< 256`; `bytes.Compare` becomes lexicographic comparison).
* All claims considered here are about single-threaded executions.  In a
  single-threaded run every `RLock` observes an unlocked value, every
  `RUnlock`/`Check` sees an unchanged version, and every `Upgrade` CAS
  succeeds, so the lock plumbing of `inner.get`/`inner.insert`/`inner.del`
  never triggers a restart; the embedding therefore elides the lock fields
  and restart branches, and keeps the remaining control flow exactly as in
  the source.  The lock itself (`olock`) is modelled separately for the
  lock-protocol claim.
* A Go runtime panic (out-of-range slice index, method call on a nil
  interface, `panic(...)`) and a non-terminating scan loop are modelled by
  an `Option`-valued result, `none` meaning "this operation does not return
  normally".
* The fixed 8-byte prefix buffer `prefix [8]byte` plus `prefixLen int` of
  an inner node is modelled as the list of its meaningful bytes
  (`prefix[:prefixLen]`); in every state reachable by the implementation
  `prefixLen ≤ 8`, and no operation reads the buffer beyond `prefixLen`,
  so the list carries the same information as the array.
* `node4`/`node16` keep a `lth` counter and zero-padded arrays; the model
  uses the occupied part (`keys[:lth]`, `childs[:lth]`) as lists.  The
  padding entries are zero key bytes with nil children and are never
  observed differently from the occupied-list view by the modelled
  operations.  `node48`/`node256` keep their full 256-entry index / child
  arrays and the explicit `lth` counter, since their scan loops read the
  whole array.
-/

set_option linter.unusedVariables false

namespace ArtModel

/-- Byte strings: keys of the tree (`[]byte` in the source). -/
abbrev Key := List Nat

/-- `maxPrefixLen` from `node.go`. -/
def maxPrefixLen : Nat := 8

/-- `bytes.Compare` on byte strings: lexicographic order with the shorter
prefix ordered first. -/
def cmpBytes : Key → Key → Ordering
  | [], [] => .eq
  | [], _ :: _ => .lt
  | _ :: _, [] => .gt
  | a :: as, b :: bs =>
    if a < b then .lt else if b < a then .gt else cmpBytes as bs

/-- Length of the longest common prefix of two byte strings. -/
def lcp : Key → Key → Nat
  | a :: as, b :: bs => if a = b then lcp as bs + 1 else 0
  | _, _ => 0

/-- Inner loop of `comparePrefix` (node.go): count equal bytes, capped at
`maxPrefixLen`; `d` is the number already counted. -/
def cpGo : Key → Key → Nat → Nat
  | a :: as, b :: bs, d =>
    if a ≠ b then d
    else if d + 1 = maxPrefixLen then d + 1
    else cpGo as bs (d + 1)
  | _, _, d => d

/-- `comparePrefix(k1, k2, off1, off2)` from `node.go`: the number of equal
bytes of `k1` from `off1` and `k2` from `off2`, capped at `maxPrefixLen`. -/
def comparePrefix (k1 k2 : Key) (off1 off2 : Nat) : Nat :=
  cpGo (k1.drop off1) (k2.drop off2) 0

/-- The four fan-out layouts of an inner node (`inode` implementations in
`node.go`), parametric in the child type.  `node4`/`node16` are modelled by
their occupied key/child lists; `node48` by its occupied count `lth`, the
256-entry byte→slot index (`0` = absent, `i+1` = slot `i`) and the 48-entry
child array; `node256` by `lth` and the 256-entry child array. -/
inductive VNodeF (β : Type) : Type where
  | node4 (keys : List Nat) (childs : List β)
  | node16 (keys : List Nat) (childs : List β)
  | node48 (lth : Nat) (slots : List Nat) (childs : List (Option β))
  | node256 (lth : Nat) (childs : List (Option β))
  deriving Repr

/-- A tree node (`node` interface in `node.go`): a leaf carrying the full
key and its value, or an inner node with a compressed prefix and one of the
four fan-out layouts. -/
inductive Art (α : Type) : Type where
  | leaf (key : Key) (value : α)
  | inner (pfx : Key) (node : VNodeF (Art α))
  deriving Repr

namespace VNodeF

variable {β : Type}

/-- `node4.index` / `node16.index`: position of the first key byte `≥ k`
in the sorted key array, or the occupied length if there is none. -/
def sortedIdx (keys : List Nat) (k : Nat) : Nat :=
  match keys.findIdx? (fun b => k ≤ b) with
  | some i => i
  | none => keys.length

/-- `child(k)` of each variant: the index passed to `replace` together with
the child, or `none` when the variant has no child at byte `k` (the source
returns a nil child in that case).  For `node4`/`node16` the index is the
array position, for `node48`/`node256` it is the byte itself. -/
def child : VNodeF β → Nat → Option (Nat × β)
  | node4 keys childs, k =>
    let i := sortedIdx keys k
    if i < keys.length ∧ keys.getD i 0 = k then
      (childs.get? i).map (fun c => (i, c))
    else none
  | node16 keys childs, k =>
    match keys.findIdx? (fun b => b = k) with
    | some i => (childs.get? i).map (fun c => (i, c))
    | none => none
  | node48 _ slots childs, k =>
    match slots.getD k 0 with
    | 0 => none
    | i + 1 => (childs.getD i none).map (fun c => (k, c))
  | node256 _ childs, k => (childs.getD k none).map (fun c => (k, c))

/-- `next(b?)` of each variant: the first child strictly after byte `b`
(after nothing when `b = none`), in ascending byte order.  Returns `none`
when the scan finds no child (the source returns `(0, nil)`), and also when
the scan stops at an index entry whose child slot is nil. -/
def next : VNodeF β → Option Nat → Option (Nat × β)
  | node4 keys childs, none => keys.head?.bind fun b => childs.head?.map fun c => (b, c)
  | node4 keys childs, some k =>
    match (keys.zip childs).find? (fun p => k < p.1) with
    | some p => some p
    | none => none
  | node16 keys childs, none => keys.head?.bind fun b => childs.head?.map fun c => (b, c)
  | node16 keys childs, some k =>
    match (keys.zip childs).find? (fun p => k < p.1) with
    | some p => some p
    | none => none
  | node48 _ slots childs, k =>
    ((List.range 256).find? fun b =>
        (k.elim true fun k' => decide (k' < b)) && decide (slots.getD b 0 ≠ 0)).bind fun b =>
      (childs.getD (slots.getD b 0 - 1) none).map fun c => (b, c)
  | node256 _ childs, k =>
    ((List.range 256).find? fun b =>
        (k.elim true fun k' => decide (k' < b)) && (childs.getD b none).isSome).bind fun b =>
      (childs.getD b none).map fun c => (b, c)

/-- `prev(b?)` of each variant, exactly as written in the source, including
its failure modes.  The outer `Option` is `none` when the source panics or
scans forever; `some none` when it returns a nil child (exhausted); and
`some (some (b, c))` when it returns child `c` at byte `b`.

* `node4.prev` handles the empty node and terminates its scan at index 0.
* `node16.prev` reads `keys[lth-1]` for `b = nil` (out of range when
  `lth = 0`), and its scan loop `for i := n.lth; i >= 0; i--` on a `uint8`
  reaches `i = 0` and reads `keys[i-1] = keys[255]`, out of range, whenever
  no occupied key byte is smaller than the bound.
* `node48.prev` starts the scan at `b = lth-1` (wrapping at `lth = 0`),
  treats the `uint8` scan variable as a key byte, cycles forever if no byte
  below the start matches, and reads `childs[idx]` instead of
  `childs[idx-1]` (out of range when `idx = 48`).
* `node256.prev` scans `idx` from `lth-1` downward on a `uint16`, so it
  reads `childs[65535]` (out of range) after exhausting `lth-1 .. 0`, and
  immediately when `lth = 0`. -/
def prev : VNodeF β → Option Nat → Option (Option (Nat × β))
  | node4 keys childs, none =>
    if keys.length = 0 then some none
    else some (keys.getLast?.bind fun b => childs.getLast?.map fun c => (b, c))
  | node4 keys childs, some k =>
    some (((keys.zip childs).reverse.find? (fun p => p.1 < k)).map id)
  | node16 keys childs, none =>
    if keys.length = 0 then none
    else some (keys.getLast?.bind fun b => childs.getLast?.map fun c => (b, c))
  | node16 keys childs, some k =>
    match (keys.zip childs).reverse.find? (fun p => p.1 < k) with
    | some p => some (some p)
    | none => none
  | node48 lth slots childs, k =>
    match ((List.range 256).map (fun i => (lth + 255 - i) % 256)).find?
        (fun b => (k.elim true fun k' => decide (b < k')) && decide (slots.getD b 0 ≠ 0)) with
    | none => none
    | some b =>
      let idx := slots.getD b 0
      if idx < 48 then some ((childs.getD idx none).map fun c => (b, c))
      else none
  | node256 lth childs, k =>
    if lth = 0 ∨ 256 < lth then none
    else
      match ((List.range lth).reverse).find?
          (fun b => (k.elim true fun k' => decide (b < k')) && (childs.getD b none).isSome) with
      | some b => some ((childs.getD b none).map fun c => (b, c))
      | none => none

/-- `addChild(k, child)`.  `node4`/`node16` insert in sorted position;
`node48` scans for the first free child slot and panics (`none`) if there is
none; `node256` stores directly. -/
def addChild : VNodeF β → Nat → β → Option (VNodeF β)
  | node4 keys childs, k, c =>
    some (node4 (keys.insertIdx (sortedIdx keys k) k)
                (childs.insertIdx (sortedIdx keys k) c))
  | node16 keys childs, k, c =>
    some (node16 (keys.insertIdx (sortedIdx keys k) k)
                 (childs.insertIdx (sortedIdx keys k) c))
  | node48 lth slots childs, k, c =>
    match childs.findIdx? (fun s => s.isNone) with
    | some i => some (node48 (lth + 1) (slots.set k (i + 1)) (childs.set i (some c)))
    | none => none
  | node256 lth childs, k, c => some (node256 (lth + 1) (childs.set k (some c)))

/-- `replace(idx, child)`.  A non-nil child overwrites in place; a nil child
deletes: `node4`/`node16` shift the tail down (reading `keys[lth-1]`, out of
range when the node is empty), `node48` clears the byte→slot entry and
panics when the entry is already 0, `node256` clears the slot. -/
def replace : VNodeF β → Nat → Option β → Option (VNodeF β)
  | node4 keys childs, i, some c => some (node4 keys (childs.set i c))
  | node4 keys childs, i, none =>
    if keys.length = 0 then none
    else some (node4 (keys.eraseIdx i) (childs.eraseIdx i))
  | node16 keys childs, i, some c => some (node16 keys (childs.set i c))
  | node16 keys childs, i, none =>
    if keys.length = 0 then none
    else some (node16 (keys.eraseIdx i) (childs.eraseIdx i))
  | node48 lth slots childs, k, c =>
    match slots.getD k 0 with
    | 0 => none
    | i + 1 =>
      match c with
      | some c' => some (node48 lth slots (childs.set i (some c')))
      | none => some (node48 (lth - 1) (slots.set k 0) (childs.set i none))
  | node256 lth childs, k, c =>
    match c with
    | some c' => some (node256 lth (childs.set k (some c')))
    | none => some (node256 (lth - 1) (childs.set k none))

/-- `full()` of each variant. -/
def full : VNodeF β → Bool
  | node4 keys _ => keys.length = 4
  | node16 keys _ => keys.length = 16
  | node48 lth _ _ => lth = 48
  | node256 lth _ => lth = 256

/-- `min()` of each variant (the shrink threshold, checked before the
delete). -/
def min : VNodeF β → Bool
  | node4 keys _ => keys.length ≤ 2
  | node16 keys _ => keys.length ≤ 5
  | node48 lth _ _ => lth ≤ 17
  | node256 lth _ => lth ≤ 49

/-- Whether the variant is a `node4` (the `n.node.(*node4)` type check in
`inner.del`). -/
def isNode4 : VNodeF β → Bool
  | node4 _ _ => true
  | _ => false

/-- `grow()`: the next larger variant; `node256.grow` returns nil
(`none`). -/
def grow : VNodeF β → Option (VNodeF β)
  | node4 keys childs => some (node16 keys childs)
  | node16 keys childs =>
    some (node48 keys.length
      ((List.range childs.length).foldl
        (fun sl i => sl.set (keys.getD i 0) (i + 1)) (List.replicate 256 0))
      ((childs.map some) ++ List.replicate (48 - childs.length) none))
  | node48 lth slots childs =>
    some (node256 lth
      ((List.range 256).map fun b =>
        match slots.getD b 0 with
        | 0 => none
        | i + 1 => childs.getD i none))
  | node256 lth childs => none

/-- The occupied (byte, child) pairs of a `node48`/`node256` layout, in
ascending byte order. -/
def sparseEntries (slots : List Nat) (childs : List (Option β)) : List (Nat × β) :=
  (List.range 256).filterMap fun b =>
    match slots.getD b 0 with
    | 0 => none
    | i + 1 => (childs.getD i none).map fun c => (b, c)

/-- The occupied (byte, child) pairs of a `node256` layout, in ascending
byte order. -/
def denseEntries (childs : List (Option β)) : List (Nat × β) :=
  (List.range 256).filterMap fun b => (childs.getD b none).map fun c => (b, c)

/-- `shrink()`: the next smaller variant.  `node4.shrink` panics (`none`);
`node16.shrink` copies the first four entries; `node48.shrink` and
`node256.shrink` collect the occupied entries in byte order. -/
def shrink : VNodeF β → Option (VNodeF β)
  | node4 _ _ => none
  | node16 keys childs => some (node4 (keys.take 4) (childs.take 4))
  | node48 lth slots childs =>
    some (node16 ((sparseEntries slots childs).map Prod.fst)
                 ((sparseEntries slots childs).map Prod.snd))
  | node256 lth childs =>
    some (node48 lth
      ((List.range 256).foldl
        (fun sl b =>
          match (denseEntries childs).findIdx? (fun p => p.1 = b) with
          | some i => sl.set b (i + 1)
          | none => sl)
        (List.replicate 256 0))
      (((denseEntries childs).map (fun p => some p.2)) ++
        List.replicate (48 - (denseEntries childs).length) none))

/-- The occupied (byte, child) pairs of any variant, in the array order of
`node4`/`node16` (which is byte order when sorted) and in byte order for
`node48`/`node256`.  This is the abstraction used by the specifications. -/
def entries : VNodeF β → List (Nat × β)
  | node4 keys childs => keys.zip childs
  | node16 keys childs => keys.zip childs
  | node48 _ slots childs => sparseEntries slots childs
  | node256 _ childs => denseEntries childs

end VNodeF

section SizeLemmas

variable {β : Type} [SizeOf β]

theorem sizeOf_lt_of_get? {l : List β} {i : Nat} {c : β} (h : l.get? i = some c) :
    sizeOf c < sizeOf l := by
  have hm : c ∈ l := List.get?_mem h
  exact List.sizeOf_lt_of_mem hm

theorem sizeOf_lt_of_getD_some {l : List (Option β)} {i : Nat} {c : β}
    (h : l.getD i none = some c) : sizeOf c < sizeOf l := by
  rw [List.getD_eq_getElem?_getD, ← List.get?_eq_getElem?] at h
  have h1 : l.get? i = some (some c) := by
    rcases h2 : l.get? i with _ | o
    · rw [h2] at h; simp at h
    · rw [h2] at h; simp at h; rw [h]
  have hm : (some c) ∈ l := List.get?_mem h1
  have h3 : sizeOf (some c) < sizeOf l := List.sizeOf_lt_of_mem hm
  have h4 : sizeOf c < sizeOf (some c) := by
    simp only [Option.some.sizeOf_spec]
    omega
  omega

theorem sizeOf_child_lt {v : VNodeF β} {b i : Nat} {c : β}
    (h : v.child b = some (i, c)) : sizeOf c < sizeOf v := by
  cases v with
  | node4 keys childs =>
    simp only [VNodeF.child] at h
    split at h
    · rw [Option.map_eq_some'] at h
      obtain ⟨c', hc', hec⟩ := h
      obtain ⟨h1, h2⟩ := Prod.mk.injEq .. ▸ hec
      subst h2
      have := sizeOf_lt_of_get? hc'
      simp only [VNodeF.node4.sizeOf_spec]
      omega
    · exact absurd h (by simp)
  | node16 keys childs =>
    simp only [VNodeF.child] at h
    split at h
    next i' heq =>
      rw [Option.map_eq_some'] at h
      obtain ⟨c', hc', hec⟩ := h
      obtain ⟨h1, h2⟩ := Prod.mk.injEq .. ▸ hec
      subst h2
      have := sizeOf_lt_of_get? hc'
      simp only [VNodeF.node16.sizeOf_spec]
      omega
    next => exact absurd h (by simp)
  | node48 lth slots childs =>
    simp only [VNodeF.child] at h
    split at h
    next => exact absurd h (by simp)
    next j heq =>
      rw [Option.map_eq_some'] at h
      obtain ⟨c', hc', hec⟩ := h
      obtain ⟨h1, h2⟩ := Prod.mk.injEq .. ▸ hec
      subst h2
      have := sizeOf_lt_of_getD_some hc'
      simp only [VNodeF.node48.sizeOf_spec]
      omega
  | node256 lth childs =>
    simp only [VNodeF.child] at h
    rw [Option.map_eq_some'] at h
    obtain ⟨c', hc', hec⟩ := h
    obtain ⟨h1, h2⟩ := Prod.mk.injEq .. ▸ hec
    subst h2
    have := sizeOf_lt_of_getD_some hc'
    simp only [VNodeF.node256.sizeOf_spec]
    omega

end SizeLemmas

section Ops

variable {α : Type}

/-- The expansion loop of `leaf.insert` (node.go): called with the existing
leaf `(lk, lv)` and the new leaf `(k, v)` whose keys differ, it builds a
chain of inner nodes whose prefixes cover the common prefix of the two keys
from `depth` on, `maxPrefixLen` bytes per link plus one byte consumed as
the branching byte into the next link, ending in a `node4` holding both
leaves at their diverging bytes.  `none` models the out-of-range panics of
`l.key[depth+cmp]` / `other.key[depth+cmp]` / `l.key[depth-1]`. -/
def leafExpand (lk : Key) (lv : α) (k : Key) (v : α) (depth : Nat) : Option (Art α) :=
  let cmp := comparePrefix lk k depth depth
  if cmp < maxPrefixLen then
    match lk.get? (depth + cmp), k.get? (depth + cmp) with
    | some b1, some b2 =>
      ((VNodeF.node4 [] []).addChild b1 (.leaf lk lv)).bind fun m1 =>
        (m1.addChild b2 (.leaf k v)).map fun m2 =>
          Art.inner ((lk.drop depth).take cmp) m2
    | _, _ => none
  else
    match h : lk.get? (depth + maxPrefixLen) with
    | some b =>
      (leafExpand lk lv k v (depth + maxPrefixLen + 1)).map fun sub =>
        Art.inner ((lk.drop depth).take maxPrefixLen) (VNodeF.node4 [b] [sub])
    | none => none
termination_by lk.length + 1 - depth
decreasing_by
  have : depth + maxPrefixLen < lk.length := by
    have h2 := List.get?_eq_some.mp h
    exact h2.1
  simp only [maxPrefixLen] at *
  omega

/-- `leaf.insert` (node.go): replace the leaf when the keys are equal (the
new leaf, hence the new value, wins), otherwise expand. -/
def leafInsert (lk : Key) (lv : α) (k : Key) (v : α) (depth : Nat) : Option (Art α) :=
  if k = lk then some (.leaf k v) else leafExpand lk lv k v depth

/-- `inner.get` / `leaf.get` (node.go), locks elided: look up `key` starting
at `depth` prefix bytes consumed.  `some (some v)` = found, `some none` =
not found, `none` = panic (reading `key[nextDepth]` past the end of the
key). -/
def artGet : Art α → Key → Nat → Option (Option α)
  | .leaf lk lv, key, _ => some (if lk = key then some lv else none)
  | .inner pfx nd, key, depth =>
    let cmp := comparePrefix pfx key 0 depth
    if cmp ≠ pfx.length then some none
    else
      match key.get? (depth + pfx.length) with
      | none => none
      | some b =>
        match h : nd.child b with
        | none => some none
        | some (_, c) => artGet c key (depth + pfx.length + 1)
termination_by n _ _ => sizeOf n
decreasing_by
  have h1 := sizeOf_child_lt h
  simp only [Art.inner.sizeOf_spec] at h1 ⊢
  omega

/-- `inner.insert` (node.go), locks elided: insert the leaf `(k, v)` into
the subtree, returning the node that replaces the current one.  `none`
models the panics (key read out of range during a prefix split or when the
key is exhausted at this node, `addChild` on the nil result of
`node256.grow`, no free `node48` slot). -/
def artInsert : Art α → Key → α → Nat → Option (Art α)
  | .leaf lk lv, k, v, depth => leafInsert lk lv k v depth
  | .inner pfx nd, k, v, depth =>
    let cmp := comparePrefix pfx k 0 depth
    if cmp ≠ pfx.length then
      -- prefix split: the node keeps the first cmp prefix bytes and gets a
      -- fresh node4 holding the new leaf and the rebuilt old child
      match k.get? (depth + cmp), pfx.get? cmp with
      | some kb, some pb =>
        ((VNodeF.node4 [] []).addChild kb (.leaf k v)).bind fun m1 =>
          (m1.addChild pb (Art.inner (pfx.drop (cmp + 1)) nd)).map fun m2 =>
            Art.inner (pfx.take cmp) m2
      | _, _ => none
    else
      match k.get? (depth + pfx.length) with
      | none => none
      | some b =>
        match h : nd.child b with
        | none =>
          (if nd.full then nd.grow else some nd).bind fun nd1 =>
            (nd1.addChild b (.leaf k v)).map fun nd2 => Art.inner pfx nd2
        | some (idx, c) =>
          match c with
          | .leaf lk2 lv2 =>
            (leafInsert lk2 lv2 k v (depth + pfx.length + 1)).bind fun repl =>
              (nd.replace idx (some repl)).map fun nd1 => Art.inner pfx nd1
          | .inner cpfx cnd =>
            (artInsert (.inner cpfx cnd) k v (depth + pfx.length + 1)).bind fun c2 =>
              (nd.replace idx (some c2)).map fun nd1 => Art.inner pfx nd1
termination_by n _ _ _ => sizeOf n
decreasing_by
  have h1 := sizeOf_child_lt h
  simp only [Art.inner.sizeOf_spec] at h1 ⊢
  omega

/-- `inherit(prefix, prefixLen)` (node.go): prepend `pfxArg` to this node's
prefix, creating a fresh single-child inner link when the combined length
exceeds `maxPrefixLen`.  On a leaf it is the identity. -/
def artInherit : Art α → Key → Art α
  | .leaf k v, _ => .leaf k v
  | .inner pfx2 nd, pfxArg =>
    if pfx2.length + pfxArg.length ≤ maxPrefixLen then
      .inner (pfxArg ++ pfx2) nd
    else
      Art.inner (pfxArg ++ pfx2.take (maxPrefixLen - pfxArg.length))
        (VNodeF.node4 [pfx2.getD (maxPrefixLen - pfxArg.length) 0]
          [Art.inner (pfx2.drop (maxPrefixLen - pfxArg.length + 1)) nd])

/-- `inner.del` / `leaf.del` (node.go), locks elided: delete `key` from the
subtree and return the node that replaces the current one (for the
path-compression collapse this is the `inherit` result handed to the
parent's `replace` callback).  `none` models panics: `leaf.del`'s
`panic("not needed")`, reading `key[nextDepth]` past the end of the key,
and calling `inherit` on the nil child returned by `next` on an emptied
`node4`. -/
def artDel : Art α → Key → Nat → Option (Art α)
  | .leaf _ _, _, _ => none
  | .inner pfx nd, key, depth =>
    let cmp := comparePrefix pfx key 0 depth
    if cmp ≠ pfx.length then some (.inner pfx nd)
    else
      match key.get? (depth + pfx.length) with
      | none => none
      | some b =>
        match h : nd.child b with
        | none => some (.inner pfx nd)
        | some (idx, c) =>
          match c with
          | .leaf lk2 _ =>
            if lk2 = key then
              if nd.isNode4 ∧ nd.min ∧ pfx.length < maxPrefixLen then
                (nd.replace idx none).bind fun nd1 =>
                  match nd1.next none with
                  | none => none
                  | some (leftb, left) => some (artInherit left (pfx ++ [leftb]))
              else
                (nd.replace idx none).bind fun nd1 =>
                  if nd.min ∧ ¬nd.isNode4 then
                    nd1.shrink.map fun nd2 => Art.inner pfx nd2
                  else some (.inner pfx nd1)
            else some (.inner pfx nd)
          | .inner cpfx cnd =>
            (artDel (.inner cpfx cnd) key (depth + pfx.length + 1)).bind fun c2 =>
              (nd.replace idx (some c2)).map fun nd1 => Art.inner pfx nd1
termination_by n _ _ => sizeOf n
decreasing_by
  have h1 := sizeOf_child_lt h
  simp only [Art.inner.sizeOf_spec] at h1 ⊢
  omega

/-- The tree facade (`tree.go`): the root pointer.  The root `olock` is
elided in the single-threaded model. -/
structure Tree (α : Type) where
  root : Option (Art α)

/-- The empty tree. -/
def Tree.empty : Tree α := ⟨none⟩

/-- `Tree.Insert` (tree.go): install a leaf at a nil root, otherwise run the
root node's insert.  `none` models a panic during the insert. -/
def Tree.Insert (t : Tree α) (key : Key) (value : α) : Option (Tree α) :=
  match t.root with
  | none => some ⟨some (.leaf key value)⟩
  | some r => (artInsert r key value 0).map fun r2 => ⟨some r2⟩

/-- `Tree.Get` (tree.go): `some (some v)` = `(v, true)`, `some none` =
`(nil, false)`, `none` = panic. -/
def Tree.Get (t : Tree α) (key : Key) : Option (Option α) :=
  match t.root with
  | none => some none
  | some r => artGet r key 0

/-- `Tree.Delete` (tree.go): a leaf root is removed on a key match and kept
otherwise; for an inner root the recursive delete runs with a replace
callback that rewrites the root pointer.  With a nil root both `leaf` type
assertions fail and the method is invoked on a nil `node` interface, a
nil-pointer panic (`none`). -/
def Tree.Delete (t : Tree α) (key : Key) : Option (Tree α) :=
  match t.root with
  | none => none
  | some (.leaf lk lv) => if lk = key then some ⟨none⟩ else some t
  | some r => (artDel r key 0).map fun r2 => ⟨some r2⟩

/-- `Tree.Empty` (tree.go). -/
def Tree.Empty (t : Tree α) : Bool := t.root.isNone

/-- Run a list of `Insert` operations from the given tree. -/
def Tree.InsertAll (t : Tree α) : List (Key × α) → Option (Tree α)
  | [] => some t
  | (k, v) :: rest => (t.Insert k v).bind fun t2 => t2.InsertAll rest

/-- Run a list of `Delete` operations from the given tree. -/
def Tree.DeleteAll (t : Tree α) : List Key → Option (Tree α)
  | [] => some t
  | k :: rest => (t.Delete k).bind fun t2 => t2.DeleteAll rest

end Ops

/-! ## The optimistic lock (`olock.go`)

The lock claim is about arbitrary protocol-respecting operation sequences,
so the lock is modelled as a transition system over its 64-bit counter
value plus a flag recording whether the (write) lock is currently held.
Bit 0 of the value is the obsolete bit, bit 1 the locked bit. -/

/-- `2^64`: the counter wraps at 64 bits. -/
def u64 : Nat := 2 ^ 64

/-- `isObsolete` (olock.go): bit 0. -/
def isObsolete (v : Nat) : Bool := v % 2 = 1

/-- The locked bit (bit 1), tested by `waitUnlocked` as `version&2 == 2`. -/
def isLocked (v : Nat) : Bool := v / 2 % 2 = 1

/-- `setLockedBit` (olock.go): `version + 2`, on a 64-bit counter. -/
def setLockedBit (v : Nat) : Nat := (v + 2) % u64

/-- `Unlock` (olock.go): atomically add 2. -/
def unlockAdd (v : Nat) : Nat := (v + 2) % u64

/-- `UnlockObsolete` (olock.go): atomically add 3. -/
def unlockObsoleteAdd (v : Nat) : Nat := (v + 3) % u64

/-- The state of one `olock` together with whether the write lock is
currently held by the (unique) protocol-following owner. -/
structure OlockState where
  value : Nat
  held : Bool
  deriving Repr, DecidableEq

/-- One protocol-respecting operation on an `olock`:

* `RLock`, `RUnlock` and `Check` only read the counter;
* `Upgrade` is issued with a version obtained from a preceding `RLock`
  whose obsolete bit the caller saw clear (a protocol follower restarts on
  an obsolete read instead of upgrading); its CAS succeeds exactly when the
  counter still equals that version, and then sets the locked bit;
* `Unlock` and `UnlockObsolete` add 2 resp. 3 and are issued only by the
  holder of the write lock. -/
inductive OlockStep : OlockState → OlockState → Prop where
  | rlock (s : OlockState) : OlockStep s s
  | runlock (s : OlockState) : OlockStep s s
  | check (s : OlockState) : OlockStep s s
  | upgradeOk (s : OlockState) (version : Nat) (hv : isObsolete version = false)
      (hcur : s.value = version) (hheld : s.held = false) :
      OlockStep s ⟨setLockedBit version, true⟩
  | upgradeFail (s : OlockState) (version : Nat) (hcur : s.value ≠ version) :
      OlockStep s s
  | unlock (s : OlockState) (h : s.held = true) :
      OlockStep s ⟨unlockAdd s.value, false⟩
  | unlockObsolete (s : OlockState) (h : s.held = true) :
      OlockStep s ⟨unlockObsoleteAdd s.value, false⟩

/-- `olock.Lock` (olock.go) run against a counter no other thread is
modifying, with fuel bounding the retry loop: `RLock` spins while the
locked bit is set (forever, since nobody will clear it), retries the loop
when the read reported obsolete, and otherwise upgrades (the CAS succeeds,
the value being unchanged).  `none` means `Lock` never returns. -/
def lockLoop : Nat → Nat → Option Nat
  | 0, _ => none
  | fuel + 1, v =>
    if isLocked v then none
    else if isObsolete v then lockLoop fuel v
    else some (setLockedBit v)

/-! ## The iterator (`iterator` in the concurrent test build, plus the
`Tree.Iterator` constructor, which is absent from the sources and modelled
from the spec) -/

section IterDefs

variable {α : Type}

/-- The direct children of a fan-out layout, disregarding the byte index
(for `node48`/`node256` this is every occupied child slot, whether or not
the byte→slot index maps to it). -/
def childList : VNodeF β → List β
  | .node4 _ cs => cs
  | .node16 _ cs => cs
  | .node48 _ _ cs => cs.reduceOption
  | .node256 _ cs => cs.reduceOption

theorem sizeOf_childList_lt {β : Type} [SizeOf β] {nd : VNodeF β} {c : β}
    (hm : c ∈ childList nd) : sizeOf c < sizeOf nd := by
  cases nd with
  | node4 keys childs =>
    simp only [childList] at hm
    have := List.sizeOf_lt_of_mem hm
    simp only [VNodeF.node4.sizeOf_spec]
    omega
  | node16 keys childs =>
    simp only [childList] at hm
    have := List.sizeOf_lt_of_mem hm
    simp only [VNodeF.node16.sizeOf_spec]
    omega
  | node48 lth slots childs =>
    simp only [childList] at hm
    have h2 : some c ∈ childs := List.reduceOption_mem_iff.mp hm
    have h3 := List.sizeOf_lt_of_mem h2
    have h4 : sizeOf c < sizeOf (some c) := by
      simp only [Option.some.sizeOf_spec]; omega
    simp only [VNodeF.node48.sizeOf_spec]
    omega
  | node256 lth childs =>
    simp only [childList] at hm
    have h2 : some c ∈ childs := List.reduceOption_mem_iff.mp hm
    have h3 := List.sizeOf_lt_of_mem h2
    have h4 : sizeOf c < sizeOf (some c) := by
      simp only [Option.some.sizeOf_spec]; omega
    simp only [VNodeF.node256.sizeOf_spec]
    omega

/-- Every leaf key stored anywhere below this node is nonempty (true for
any tree built by inserting nonempty keys). -/
def allLeafKeysNe : Art α → Bool
  | .leaf k _ => !k.isEmpty
  | .inner _ nd => (childList nd).attach.all fun c => allLeafKeysNe c.1
termination_by n => sizeOf n
decreasing_by
  have h1 := sizeOf_childList_lt c.2
  simp only [Art.inner.sizeOf_spec]
  omega

/-- The number of inner nodes in a subtree (used to measure the length of
the chain built by a two-leaf expansion, whose only nodes besides the two
leaves are the chain links). -/
def countInner : Art α → Nat
  | .leaf _ _ => 0
  | .inner _ nd => 1 + ((childList nd).attach.map fun c => countInner c.1).sum
termination_by n => sizeOf n
decreasing_by
  have h1 := sizeOf_childList_lt c.2
  simp only [Art.inner.sizeOf_spec]
  omega

/-- One entry of the iterator's checkpoint stack: an inner node and the key
byte of the last child handed out at that node (`nil` before the first).
The parent lock/version fields are elided in the unmutated-tree model (the
version checks always pass). -/
structure Checkpoint (α : Type) where
  node : Art α
  pointer : Option Nat

/-- The iterator state (`iterator` struct): the tree, the checkpoint stack
(head = deepest), the closed flag, the `cursor` and `terminate` bounds, the
direction flag, and the current key/value. -/
structure Iter (α : Type) where
  tree : Tree α
  stack : List (Checkpoint α)
  closed : Bool
  cursor : Key
  terminate : Key
  reverse : Bool
  key : Key
  value : Option α

/-- Modelled from the spec: the `Tree.Iterator(start, end)` constructor is
called by the tests but is not among the source files; per §4.5 the
iterator is configured with `cursor` = the start bound and `terminate` =
the end bound (nil bounds are empty byte strings), an uninitialised stack,
and not closed. -/
def Tree.Iterator (t : Tree α) (start stop : Key) : Iter α :=
  ⟨t, [], false, start, stop, false, [], none⟩

/-- `iterator.Reverse`: swap the bounds and flip the direction. -/
def Iter.Reverse (i : Iter α) : Iter α :=
  { i with cursor := i.terminate, terminate := i.cursor, reverse := true }

/-- `iterator.inRange`: forward, `cursor < key ≤ terminate`; reverse,
`terminate ≤ key < cursor`; an empty `terminate` bound is no bound and an
empty reverse `cursor` bound is no bound. -/
def Iter.inRange (i : Iter α) (key : Key) : Bool :=
  if !i.reverse then
    (cmpBytes key i.cursor = .gt) &&
      (i.terminate.length = 0 || !(cmpBytes key i.terminate = .gt))
  else
    ((cmpBytes key i.cursor = .lt) || i.cursor.length = 0) &&
      (i.terminate.length = 0 || !(cmpBytes key i.terminate = .lt))

/-- `iterator.init`: result is `(exit, hasNext)` plus the new state. -/
def Iter.init (i : Iter α) : Bool × Bool × Iter α :=
  match i.tree.root with
  | none => (true, false, { i with closed := true })
  | some (.leaf lk lv) =>
    if i.inRange lk then (true, true, { i with closed := true, key := lk, value := some lv })
    else (true, false, { i with closed := true })
  | some r => (false, false, { i with stack := [⟨r, none⟩] })

/-- `iterator.tryAdvance`, on an unmutated tree (the version validations
always pass, so the restart outcome is impossible): result is
`(emitted, state)`; `none` models a panic (a leaf on the checkpoint stack,
possible only for corrupt states) or a `prev` failure in reverse mode. -/
def Iter.tryAdvance (i : Iter α) : Option (Bool × Iter α) :=
  match i.stack with
  | [] => none
  | cp :: rest =>
    match cp.node with
    | .leaf _ _ => none
    | .inner _ nd =>
      match (if i.reverse then nd.prev cp.pointer else some (nd.next cp.pointer)) with
      | none => none
      | some none => some (false, { i with stack := rest })
      | some (some (b, child)) =>
        let cp2 : Checkpoint α := { cp with pointer := some b }
        match child with
        | .leaf lk lv =>
          if i.inRange lk then
            some (true, { i with stack := cp2 :: rest, key := lk, value := some lv,
                                 cursor := lk })
          else some (false, { i with stack := cp2 :: rest })
        | .inner cpfx cnd =>
          some (false, { i with stack := ⟨.inner cpfx cnd, none⟩ :: cp2 :: rest })

/-- `iterator.iterate`, with fuel bounding the advance loop. -/
def Iter.iterate : Nat → Iter α → Option (Bool × Iter α)
  | 0, _ => none
  | fuel + 1, i =>
    match i.stack with
    | [] => some (false, { i with closed := true })
    | _ :: _ =>
      match i.tryAdvance with
      | none => none
      | some (true, i2) => some (true, i2)
      | some (false, i2) => Iter.iterate fuel i2

/-- `iterator.Next`, with fuel: `some (more, state)`, where `more = false`
means the iterator is exhausted; `none` means the call does not return
normally (out of fuel, or a `prev` panic/hang). -/
def Iter.Next (fuel : Nat) (i : Iter α) : Option (Bool × Iter α) :=
  if i.closed then some (false, i)
  else
    match i.stack with
    | [] =>
      match i.init with
      | (true, nxt, i2) => some (nxt, i2)
      | (false, _, i2) => Iter.iterate fuel i2
    | _ :: _ => Iter.iterate fuel i

/-- Keys emitted by up to `n` successive `Next` calls (each with the given
fuel), together with the final state. -/
def Iter.run : Nat → Nat → Iter α → List Key × Iter α
  | 0, _, i => ([], i)
  | n + 1, fuel, i =>
    match Iter.Next fuel i with
    | some (true, i2) =>
      let r := Iter.run n fuel i2
      (i2.key :: r.1, r.2)
    | some (false, i2) => ([], i2)
    | none => ([], i)

/-- The four variant kinds, for stating which layout an inner node uses. -/
inductive NodeKind where
  | k4
  | k16
  | k48
  | k256
  deriving DecidableEq, Repr

/-- The kind of a layout. -/
def kindOf {β : Type} : VNodeF β → NodeKind
  | .node4 _ _ => .k4
  | .node16 _ _ => .k16
  | .node48 _ _ _ => .k48
  | .node256 _ _ => .k256

/-- The occupied count as maintained by the layout itself (`lth`): the
occupied length for `node4`/`node16`, the `lth` field for
`node48`/`node256`.  On a well-formed node this is the number of
children. -/
def occupancy {β : Type} : VNodeF β → Nat
  | .node4 keys _ => keys.length
  | .node16 keys _ => keys.length
  | .node48 lth _ _ => lth
  | .node256 lth _ => lth

/-- The shrink threshold of each kind: the variant shrinks when at most
this many children remain after a delete. -/
def shrinkThreshold : NodeKind → Nat
  | .k4 => 0
  | .k16 => 4
  | .k48 => 16
  | .k256 => 48

/-- The next-smaller kind. -/
def smallerKind : NodeKind → NodeKind
  | .k4 => .k4
  | .k16 => .k4
  | .k48 => .k16
  | .k256 => .k48

/-- All leaf keys in the tree and on the checkpoint stack are nonempty
(every tree built by inserting nonempty keys satisfies this, and the
iterator only pushes subtree nodes). -/
def IterNe (i : Iter α) : Prop :=
  (∀ cp ∈ i.stack, allLeafKeysNe cp.node = true) ∧
  (∀ r, i.tree.root = some r → allLeafKeysNe r = true)

end IterDefs

section StructDefs

variable {α : Type} {β : Type}

/-- Layout consistency of one fan-out node, as maintained by the code:
`node4`/`node16` keep their key and child arrays aligned and their keys
strictly ascending; `node48` carries the full 256-entry byte index and
48-entry child array; `node256` carries the full 256-entry child array. -/
def nodeShape : VNodeF β → Bool
  | .node4 keys childs =>
    decide (keys.length = childs.length) && decide (List.Pairwise (fun a b => a < b) keys)
  | .node16 keys childs =>
    decide (keys.length = childs.length) && decide (List.Pairwise (fun a b => a < b) keys)
  | .node48 _ slots childs => decide (slots.length = 256) && decide (childs.length = 48)
  | .node256 _ childs => decide (childs.length = 256)

/-- Structural well-formedness of a subtree: every inner node's compressed
prefix holds at most `maxPrefixLen` meaningful bytes and every fan-out
layout is consistent.  Every tree reachable through the API satisfies
this. -/
def structOk : Art α → Bool
  | .leaf _ _ => true
  | .inner pfx nd =>
    decide (pfx.length ≤ maxPrefixLen) && nodeShape nd &&
      ((childList nd).attach.all fun c => structOk c.1)
termination_by n => sizeOf n
decreasing_by
  have h1 := sizeOf_childList_lt c.2
  simp only [Art.inner.sizeOf_spec]
  omega

/-- The descent of `key` from `depth` never reaches a leaf holding a
different key, so a later insert of `key` never runs the fragile leaf
expansion: the descent ends at a `key` leaf, at a prefix divergence, or at
an absent child.  `inner.insert` leaves the tree in this state for the key
it has just inserted. -/
def insertSafeB : Art α → Key → Nat → Bool
  | .leaf lk _, k, _ => decide (lk = k)
  | .inner pfx nd, k, depth =>
    if comparePrefix pfx k 0 depth ≠ pfx.length then true
    else
      match k.get? (depth + pfx.length) with
      | none => false
      | some b =>
        match h : nd.child b with
        | none => true
        | some (_, c) => insertSafeB c k (depth + pfx.length + 1)
termination_by n _ _ => sizeOf n
decreasing_by
  have h1 := sizeOf_child_lt h
  simp only [Art.inner.sizeOf_spec] at h1 ⊢
  omega

/-- Tree-level structural well-formedness. -/
def structOkT (t : Tree α) : Bool :=
  match t.root with
  | none => true
  | some r => structOk r

end StructDefs

/-!
# Theorems
-/

theorem lockLoop_obsolete_none (v : Nat) (hv : isObsolete v = true) :
    ∀ fuel, lockLoop fuel v = none := by
  intro fuel
  induction fuel with
  | zero => rfl
  | succ n ih =>
    by_cases hl : isLocked v = true
    · simp [lockLoop, hl]
    · simp [lockLoop, hl, hv, ih]

theorem olockStep_of_obsolete {s s' : OlockState} (hobs : isObsolete s.value = true)
    (hheld : s.held = false) (hstep : OlockStep s s') : s' = s := by
  cases hstep with
  | rlock => rfl
  | runlock => rfl
  | check => rfl
  | upgradeOk version hv hcur hheld2 =>
    rw [hcur] at hobs
    rw [hobs] at hv
    cases hv
  | upgradeFail => rfl
  | unlock h => rw [h] at hheld; cases hheld
  | unlockObsolete h => rw [h] at hheld; cases hheld

theorem olockSteps_of_obsolete {s s' : OlockState} (hobs : isObsolete s.value = true)
    (hheld : s.held = false) (hsteps : Relation.ReflTransGen OlockStep s s') : s' = s := by
  induction hsteps with
  | refl => rfl
  | tail hab hbc ih =>
    subst ih
    exact olockStep_of_obsolete hobs hheld hbc

/-- C9: Obsoleting an olock is terminal: starting from a held lock whose
obsolete bit is clear, `UnlockObsolete` sets the obsolete bit, and in every
protocol-respecting continuation the counter never changes again (so no
operation clears the obsolete bit), every subsequent `RLock` reports
`obsolete = true`, the lock is never held again, and `Lock` never
returns. -/
theorem c9_unlock_obsolete_terminal (v : Nat) (hlive : isObsolete v = false)
    (s' : OlockState)
    (hsteps : Relation.ReflTransGen OlockStep ⟨unlockObsoleteAdd v, false⟩ s') :
    isObsolete (unlockObsoleteAdd v) = true ∧
    s' = ⟨unlockObsoleteAdd v, false⟩ ∧
    isObsolete s'.value = true ∧
    s'.held = false ∧
    (∀ fuel, lockLoop fuel s'.value = none) := by
  have hobs : isObsolete (unlockObsoleteAdd v) = true := by
    simp only [isObsolete, unlockObsoleteAdd, u64, decide_eq_true_eq,
      decide_eq_false_iff_not] at *
    have h2 : (v + 3) % 2 ^ 64 % 2 = (v + 3) % 2 := Nat.mod_mod_of_dvd _ (by norm_num)
    rw [h2]
    omega
  have hsame : s' = ⟨unlockObsoleteAdd v, false⟩ :=
    olockSteps_of_obsolete hobs rfl hsteps
  subst hsame
  exact ⟨hobs, rfl, hobs, rfl, fun fuel => lockLoop_obsolete_none _ hobs fuel⟩

/-- Witness for C9 at the concrete counter value 2 (a freshly locked,
live lock): `UnlockObsolete` yields counter 5, which stays obsolete. -/
theorem c9_unlock_obsolete_terminal_witness :
    isObsolete 2 = false ∧
    (isObsolete (unlockObsoleteAdd 2) = true ∧
      (⟨unlockObsoleteAdd 2, false⟩ : OlockState) = ⟨unlockObsoleteAdd 2, false⟩ ∧
      isObsolete (OlockState.mk (unlockObsoleteAdd 2) false).value = true ∧
      (OlockState.mk (unlockObsoleteAdd 2) false).held = false ∧
      ∀ fuel, lockLoop fuel (OlockState.mk (unlockObsoleteAdd 2) false).value = none) :=
  ⟨by decide, c9_unlock_obsolete_terminal 2 (by decide) _ Relation.ReflTransGen.refl⟩

/-! ## Concrete executions: the round-trip and nil-root-delete claims -/

/-- The two keys of the failing round-trip: they share a 9-byte common
prefix, so their expansion builds a two-link chain whose first link has a
full 8-byte compressed prefix. -/
def c2Keys : List Key :=
  [[1, 0, 0, 0, 0, 0, 0, 0, 0, 1], [1, 0, 0, 0, 0, 0, 0, 0, 0, 2]]

/-- C2: refuted on the code.  Inserting the two keys of `c2Keys` into an
empty tree and then deleting both leaves the root as an inner node with a
full 8-byte prefix and an empty `node4` (deleting the first key collapses
the second-level node and hangs the remaining leaf directly under the
chain link; deleting that leaf then empties the link's `node4`, but the
collapse is skipped because `prefixLen < maxPrefixLen` fails), so
`Empty()` returns `false`, not `true`. -/
theorem c2_round_trip_not_empty :
    ((Tree.InsertAll (⟨none⟩ : Tree Nat) (c2Keys.map fun k => (k, 0))).bind
        fun t => t.DeleteAll c2Keys).map Tree.Empty = some false ∧
    ((Tree.InsertAll (⟨none⟩ : Tree Nat) (c2Keys.map fun k => (k, 0))).bind
        fun t => t.DeleteAll c2Keys) =
      some ⟨some (.inner [1, 0, 0, 0, 0, 0, 0, 0] (.node4 [] []))⟩ := by
  constructor
  · simp [c2Keys, Tree.InsertAll, Tree.Insert, Tree.DeleteAll, Tree.Delete, Tree.Empty,
      artInsert, artDel, leafInsert, leafExpand, comparePrefix, cpGo, maxPrefixLen,
      VNodeF.child, VNodeF.sortedIdx, VNodeF.addChild, VNodeF.replace, VNodeF.next,
      VNodeF.isNode4, VNodeF.min, VNodeF.full, VNodeF.grow, artInherit]
  · simp [c2Keys, Tree.InsertAll, Tree.Insert, Tree.DeleteAll, Tree.Delete, Tree.Empty,
      artInsert, artDel, leafInsert, leafExpand, comparePrefix, cpGo, maxPrefixLen,
      VNodeF.child, VNodeF.sortedIdx, VNodeF.addChild, VNodeF.replace, VNodeF.next,
      VNodeF.isNode4, VNodeF.min, VNodeF.full, VNodeF.grow, artInherit]

/-- C6: refuted on the code.  `Tree.Delete` with a nil root falls through
both `leaf` type assertions and invokes `del` on the nil `node` interface,
a nil-pointer panic, instead of being a no-op. -/
theorem c6_delete_nil_root_panics :
    Tree.Delete (⟨none⟩ : Tree Nat) [1] = none := rfl

/-! ## Iterator exhaustion (C10) -/

theorem iterate_false_closed {α : Type} :
    ∀ (fuel : Nat) (i i2 : Iter α), Iter.iterate fuel i = some (false, i2) →
      i2.closed = true := by
  intro fuel
  induction fuel with
  | zero => intro i i2 h; cases h
  | succ n ih =>
    intro i i2 h
    rw [Iter.iterate] at h
    rcases hs : i.stack with _ | ⟨cp, rest⟩
    · rw [hs] at h
      simp only [Option.some.injEq, Prod.mk.injEq] at h
      rw [← h.2]
    · rw [hs] at h
      rcases hta : i.tryAdvance with _ | ⟨em, i3⟩
      · rw [hta] at h; cases h
      · rw [hta] at h
        cases em with
        | true => simp at h
        | false => exact ih i3 i2 h

theorem next_false_closed {α : Type} (fuel : Nat) (i i2 : Iter α)
    (h : Iter.Next fuel i = some (false, i2)) : i2.closed = true := by
  rw [Iter.Next] at h
  by_cases hc : i.closed
  · simp only [hc, if_true, Option.some.injEq, Prod.mk.injEq] at h
    rw [← h.2, hc]
  · simp only [hc, if_false, Bool.false_eq_true] at h
    rcases hs : i.stack with _ | ⟨cp, rest⟩
    · rw [hs] at h
      rcases hi : i.init with ⟨e, nxt, i3⟩
      rw [hi] at h
      cases e with
      | true =>
        simp only [Option.some.injEq, Prod.mk.injEq] at h
        obtain ⟨h1, h2⟩ := h
        subst h2
        rcases hr : i.tree.root with _ | r
        · simp only [Iter.init, hr, Prod.mk.injEq] at hi
          rw [← hi.2.2]
        · cases r with
          | leaf lk lv =>
            simp only [Iter.init, hr] at hi
            by_cases hir : i.inRange lk = true
            · rw [if_pos hir] at hi
              simp only [Prod.mk.injEq] at hi
              rw [← hi.2.2]
            · rw [if_neg hir] at hi
              simp only [Prod.mk.injEq] at hi
              rw [← hi.2.2]
          | inner pfx nd =>
            simp only [Iter.init, hr, Prod.mk.injEq] at hi
            cases hi.1
      | false => exact iterate_false_closed fuel i3 i2 h
    · rw [hs] at h
      exact iterate_false_closed fuel i i2 h

/-- C10: Iterator exhaustion is permanent: once a `Next` call has returned
`false`, every later `Next` call returns `false` and leaves the iterator
state — in particular its stored key and value — untouched. -/
theorem c10_exhaustion_permanent {α : Type} (i : Iter α) (fuel : Nat) (i2 : Iter α)
    (h : Iter.Next fuel i = some (false, i2)) :
    ∀ fuel2, Iter.Next fuel2 i2 = some (false, i2) := by
  intro fuel2
  have hc := next_false_closed fuel i i2 h
  simp [Iter.Next, hc]

/-- Witness for C10: on the iterator of the empty tree the first `Next`
returns `false`, and all later calls return `false` on the unchanged
state. -/
theorem c10_exhaustion_permanent_witness :
    Iter.Next 1 (Tree.Iterator (⟨none⟩ : Tree Nat) [] []) =
      some (false, ⟨⟨none⟩, [], true, [], [], false, [], none⟩) ∧
    ∀ fuel2, Iter.Next fuel2 (⟨⟨none⟩, [], true, [], [], false, [], none⟩ : Iter Nat) =
      some (false, ⟨⟨none⟩, [], true, [], [], false, [], none⟩) :=
  ⟨rfl, c10_exhaustion_permanent (Tree.Iterator (⟨none⟩ : Tree Nat) [] []) 1
    ⟨⟨none⟩, [], true, [], [], false, [], none⟩ rfl⟩

/-! ## The two-leaf expansion chain (C4) -/

theorem cpGo_eq (a b : Key) : ∀ d, d < maxPrefixLen →
    cpGo a b d = if d + lcp a b ≤ maxPrefixLen then d + lcp a b else maxPrefixLen := by
  induction a generalizing b with
  | nil =>
    intro d hd
    have h0 : lcp ([] : Key) b = 0 := by cases b <;> rfl
    have h1 : cpGo [] b d = d := by cases b <;> rfl
    rw [h0, h1, if_pos (by simp only [maxPrefixLen] at *; omega)]
    omega
  | cons x xs ih =>
    intro d hd
    cases b with
    | nil =>
      rw [show lcp (x :: xs) [] = 0 from rfl, show cpGo (x :: xs) [] d = d from rfl,
        if_pos (by simp only [maxPrefixLen] at *; omega)]
      omega
    | cons y ys =>
      by_cases hxy : x = y
      · subst hxy
        rw [show lcp (x :: xs) (x :: ys) = lcp xs ys + 1 from by
          rw [show lcp (x :: xs) (x :: ys) = if x = x then lcp xs ys + 1 else 0 from rfl,
            if_pos rfl]]
        by_cases hcap : d + 1 = maxPrefixLen
        · have h1 : cpGo (x :: xs) (x :: ys) d = d + 1 := by
            rw [show cpGo (x :: xs) (x :: ys) d =
              if x ≠ x then d else if d + 1 = maxPrefixLen then d + 1
              else cpGo xs ys (d + 1) from rfl]
            rw [if_neg (by simp), if_pos hcap]
          rw [h1]
          by_cases h2 : d + (lcp xs ys + 1) ≤ maxPrefixLen
          · rw [if_pos h2]
            simp only [maxPrefixLen] at *
            omega
          · rw [if_neg h2]
            simp only [maxPrefixLen] at *
            omega
        · have h1 : cpGo (x :: xs) (x :: ys) d = cpGo xs ys (d + 1) := by
            rw [show cpGo (x :: xs) (x :: ys) d =
              if x ≠ x then d else if d + 1 = maxPrefixLen then d + 1
              else cpGo xs ys (d + 1) from rfl]
            rw [if_neg (by simp), if_neg hcap]
          rw [h1, ih ys (d + 1) (by simp only [maxPrefixLen] at *; omega)]
          by_cases hle : d + 1 + lcp xs ys ≤ maxPrefixLen
          · rw [if_pos hle, if_pos (by omega)]
            omega
          · rw [if_neg hle, if_neg (by omega)]
      · rw [show lcp (x :: xs) (y :: ys) = 0 from by
          rw [show lcp (x :: xs) (y :: ys) = if x = y then lcp xs ys + 1 else 0 from rfl,
            if_neg hxy]]
        rw [show cpGo (x :: xs) (y :: ys) d = d from by
          rw [show cpGo (x :: xs) (y :: ys) d =
            if x ≠ y then d else if d + 1 = maxPrefixLen then d + 1
            else cpGo xs ys (d + 1) from rfl]
          rw [if_pos hxy]]
        rw [if_pos (by simp only [maxPrefixLen] at *; omega)]
        omega

theorem comparePrefix_eq (k1 k2 : Key) (o1 o2 : Nat) :
    comparePrefix k1 k2 o1 o2 =
      if lcp (k1.drop o1) (k2.drop o2) ≤ maxPrefixLen then lcp (k1.drop o1) (k2.drop o2)
      else maxPrefixLen := by
  rw [comparePrefix, cpGo_eq _ _ 0 (by simp [maxPrefixLen])]
  simp

theorem lcp_drop : ∀ (j : Nat) (a b : Key), j ≤ lcp a b →
    lcp (a.drop j) (b.drop j) = lcp a b - j := by
  intro j
  induction j with
  | zero => intro a b h; simp
  | succ n ih =>
    intro a b h
    cases a with
    | nil => simp [lcp] at h
    | cons x xs =>
      cases b with
      | nil => simp [lcp] at h
      | cons y ys =>
        by_cases hxy : x = y
        · subst hxy
          simp only [lcp, ite_true] at h ⊢
          rw [List.drop_succ_cons, List.drop_succ_cons, ih xs ys (by omega)]
          omega
        · simp [lcp, hxy] at h

theorem countInner_inner {α : Type} (pfx : Key) (nd : VNodeF (Art α)) :
    countInner (.inner pfx nd) = 1 + ((childList nd).map countInner).sum := by
  rw [countInner]
  congr 1
  rw [List.attach_map_val (childList nd) countInner]

theorem countInner_leaf {α : Type} (k : Key) (v : α) : countInner (.leaf k v) = 0 := by
  rw [countInner]

theorem sortedIdx_nil (k : Nat) : VNodeF.sortedIdx [] k = 0 := rfl

/-- The general law of the expansion chain: if the two keys share exactly
`m` bytes from `depth` on, both keys extend past the divergence point, and
`m % 9 ≠ 8` (the residues the implementation mishandles), the expansion
succeeds and builds `m / 9 + 1` inner links. -/
theorem leafExpand_links {α : Type} (m : Nat) : ∀ (depth : Nat) (lk k : Key) (v1 v2 : α),
    lcp (lk.drop depth) (k.drop depth) = m →
    m % (maxPrefixLen + 1) ≠ maxPrefixLen →
    depth + m < lk.length →
    depth + m < k.length →
    ∃ n, leafExpand lk v1 k v2 depth = some n ∧
      countInner n = m / (maxPrefixLen + 1) + 1 := by
  induction m using Nat.strong_induction_on with
  | _ m ih =>
    intro depth lk k v1 v2 hlcp hmod hb1 hb2
    have hcmp : comparePrefix lk k depth depth =
        if m ≤ maxPrefixLen then m else maxPrefixLen := by
      rw [comparePrefix_eq, hlcp]
    by_cases hm8 : m < maxPrefixLen
    · -- terminal link: a node4 with the two leaves
      have hc2 : comparePrefix lk k depth depth = m := by
        rw [hcmp, if_pos (by omega)]
      obtain ⟨b1, hgb1⟩ : ∃ b1, lk.get? (depth + m) = some b1 := by
        rcases hg : lk.get? (depth + m) with _ | b1
        · rw [List.get?_eq_none] at hg; omega
        · exact ⟨b1, rfl⟩
      obtain ⟨b2, hgb2⟩ : ∃ b2, k.get? (depth + m) = some b2 := by
        rcases hg : k.get? (depth + m) with _ | b2
        · rw [List.get?_eq_none] at hg; omega
        · exact ⟨b2, rfl⟩
      by_cases hord : b2 ≤ b1
      · have hsi : VNodeF.sortedIdx [b1] b2 = 0 := by
          simp [VNodeF.sortedIdx, List.findIdx?_cons, hord]
        refine ⟨Art.inner ((lk.drop depth).take m)
          (VNodeF.node4 [b2, b1] [Art.leaf k v2, Art.leaf lk v1]), ?_, ?_⟩
        · rw [leafExpand]
          simp only [hc2, hm8, if_true, hgb1, hgb2, VNodeF.addChild, sortedIdx_nil,
            List.insertIdx_zero, Option.bind_some, Option.some_bind, Option.map_some,
            Option.map_some', hsi]
        · rw [countInner_inner]
          simp only [childList, List.map_cons, List.map_nil, List.sum_cons,
            List.sum_nil, countInner_leaf]
          simp only [maxPrefixLen] at hm8 ⊢
          omega
      · have hsi : VNodeF.sortedIdx [b1] b2 = 1 := by
          simp [VNodeF.sortedIdx, List.findIdx?_cons, hord]
        refine ⟨Art.inner ((lk.drop depth).take m)
          (VNodeF.node4 [b1, b2] [Art.leaf lk v1, Art.leaf k v2]), ?_, ?_⟩
        · rw [leafExpand]
          simp only [hc2, hm8, if_true, hgb1, hgb2, VNodeF.addChild, sortedIdx_nil,
            List.insertIdx_zero, Option.bind_some, Option.some_bind, Option.map_some,
            Option.map_some', hsi, List.insertIdx_succ_cons]
        · rw [countInner_inner]
          simp only [childList, List.map_cons, List.map_nil, List.sum_cons,
            List.sum_nil, countInner_leaf]
          simp only [maxPrefixLen] at hm8 ⊢
          omega
    · -- chain link: consume maxPrefixLen prefix bytes plus one branch byte
      have hm9 : 9 ≤ m := by
        simp only [maxPrefixLen] at hm8 hmod
        omega
      have hc2 : comparePrefix lk k depth depth = maxPrefixLen := by
        rw [hcmp, if_neg (by simp only [maxPrefixLen] at *; omega)]
      obtain ⟨b, hgb⟩ : ∃ b, lk.get? (depth + maxPrefixLen) = some b := by
        rcases hg : lk.get? (depth + maxPrefixLen) with _ | b
        · rw [List.get?_eq_none] at hg
          simp only [maxPrefixLen] at *
          omega
        · exact ⟨b, rfl⟩
      have hlcp2 : lcp (lk.drop (depth + maxPrefixLen + 1))
          (k.drop (depth + maxPrefixLen + 1)) = m - (maxPrefixLen + 1) := by
        have h1 : lk.drop (depth + maxPrefixLen + 1) =
            (lk.drop depth).drop (maxPrefixLen + 1) := by
          rw [List.drop_drop]; congr 1
        have h2 : k.drop (depth + maxPrefixLen + 1) =
            (k.drop depth).drop (maxPrefixLen + 1) := by
          rw [List.drop_drop]; congr 1
        rw [h1, h2, lcp_drop (maxPrefixLen + 1) _ _ (by rw [hlcp]; simp only [maxPrefixLen]; omega), hlcp]
      obtain ⟨sub, hsub, hcount⟩ :=
        ih (m - (maxPrefixLen + 1)) (by omega)
          (depth + maxPrefixLen + 1) lk k v1 v2 hlcp2
          (by simp only [maxPrefixLen] at hmod ⊢; omega)
          (by simp only [maxPrefixLen] at hm8 ⊢; omega)
          (by simp only [maxPrefixLen] at hm8 ⊢; omega)
      refine ⟨Art.inner ((lk.drop depth).take maxPrefixLen)
        (VNodeF.node4 [b] [sub]), ?_, ?_⟩
      · rw [leafExpand]
        simp only [hc2, lt_irrefl, if_false]
        split
        next b2 heq =>
          rw [hgb] at heq
          injection heq with heq2
          subst heq2
          simp only [hsub, Option.map_some, Option.map_some']
        next heq =>
          rw [hgb] at heq
          cases heq
      · rw [countInner_inner]
        simp only [childList, List.map_cons, List.map_nil, List.sum_cons, List.sum_nil,
          hcount]
        simp only [maxPrefixLen] at hm9 hmod ⊢
        omega

/-- C4 counterexample: for two keys whose common prefix (from the
expansion depth) is 9 bytes — "longer than MAX_PREFIX", so the claim's
formula `⌈len/(MAX_PREFIX+1)⌉ = ⌈9/9⌉ = 1` applies — the implementation
builds a chain of 2 inner links, not 1. -/
theorem c4_chain_formula_counterexample :
    ((leafExpand ([0, 0, 0, 0, 0, 0, 0, 0, 0, 1] : Key) 0
        [0, 0, 0, 0, 0, 0, 0, 0, 0, 2] (0 : Nat) 0).map countInner) = some 2 ∧
    (9 + (maxPrefixLen + 1) - 1) / (maxPrefixLen + 1) = 1 := by
  constructor
  · obtain ⟨n, hn, hc⟩ := leafExpand_links (α := Nat) 9 0
      [0, 0, 0, 0, 0, 0, 0, 0, 0, 1] [0, 0, 0, 0, 0, 0, 0, 0, 0, 2] 0 0
      (by decide) (by decide) (by decide) (by decide)
    rw [hn, Option.map_some', hc]
    decide
  · decide

/-- C4 (amended): when an existing leaf expands against a new leaf whose
key shares exactly `len` bytes with it from the expansion depth, both keys
extend past the divergence point, and `len mod 9 ≠ 8`, the expansion
builds a chain of `⌊len/9⌋ + 1` inner links — in particular one link for a
common prefix of exactly 7 bytes and two links for exactly 9 bytes.  (A
common prefix with `len mod 9 = 8` — in particular exactly
`MAX_PREFIX = 8` — makes the expansion consume the diverging byte as a
chain branch byte, which panics or corrupts the chain, and a common prefix
of exactly 9, not 8, is what forces the two-link chain of the long-keys
fixture.) -/
theorem c4_expansion_chain_links {α : Type} (len depth : Nat) (lk k : Key) (v1 v2 : α)
    (hlcp : lcp (lk.drop depth) (k.drop depth) = len)
    (hmod : len % (maxPrefixLen + 1) ≠ maxPrefixLen)
    (hb1 : depth + len < lk.length) (hb2 : depth + len < k.length) :
    ∃ n, leafExpand lk v1 k v2 depth = some n ∧
      countInner n = len / (maxPrefixLen + 1) + 1 :=
  leafExpand_links len depth lk k v1 v2 hlcp hmod hb1 hb2

/-- Witness for C4 at a 7-byte common prefix: one link. -/
theorem c4_expansion_chain_links_witness :
    lcp (([0, 0, 0, 0, 0, 0, 0, 1] : Key).drop 0) (([0, 0, 0, 0, 0, 0, 0, 2] : Key).drop 0) = 7 ∧
    7 % (maxPrefixLen + 1) ≠ maxPrefixLen ∧
    (∃ n, leafExpand ([0, 0, 0, 0, 0, 0, 0, 1] : Key) 0 [0, 0, 0, 0, 0, 0, 0, 2] (0 : Nat) 0 =
        some n ∧ countInner n = 7 / (maxPrefixLen + 1) + 1) :=
  ⟨by decide, by decide,
    c4_expansion_chain_links 7 0 [0, 0, 0, 0, 0, 0, 0, 1] [0, 0, 0, 0, 0, 0, 0, 2] 0 0
      (by decide) (by decide) (by decide) (by decide)⟩

/-- C5: the shrink step of `inner.del`.  Deleting an existing, matching
leaf child from an inner node whose variant is `node16`, `node48` or
`node256` (the non-`node4` variants, which never collapse) replaces the
variant by the next-smaller one exactly when the maintained occupied count
after the delete is at most 4, 16 resp. 48 (on a well-formed node the
maintained count is the number of children); otherwise the variant kind is
unchanged. -/
theorem c5_shrink_thresholds {α : Type} (pfx : Key) (nd : VNodeF (Art α)) (key : Key)
    (depth : Nat) (lv : α) (b idx : Nat)
    (hk : kindOf nd ≠ .k4)
    (hc : comparePrefix pfx key 0 depth = pfx.length)
    (hb : key.get? (depth + pfx.length) = some b)
    (hchild : nd.child b = some (idx, .leaf key lv)) :
    ∃ nd2, artDel (.inner pfx nd) key depth = some (.inner pfx nd2) ∧
      (kindOf nd2 = smallerKind (kindOf nd) ↔
        occupancy nd - 1 ≤ shrinkThreshold (kindOf nd)) ∧
      (¬ occupancy nd - 1 ≤ shrinkThreshold (kindOf nd) → kindOf nd2 = kindOf nd) := by
  have hif4 : nd.isNode4 = false := by
    cases nd with
    | node4 keys childs => exact absurd rfl hk
    | node16 keys childs => rfl
    | node48 lth slots childs => rfl
    | node256 lth childs => rfl
  have hstep : artDel (.inner pfx nd) key depth =
      (nd.replace idx none).bind fun nd1 =>
        if nd.min ∧ ¬nd.isNode4 then nd1.shrink.map fun nd2 => Art.inner pfx nd2
        else some (.inner pfx nd1) := by
    rw [artDel]
    simp only [hc, ne_eq, not_true_eq_false, if_false, hb]
    split
    next heq =>
      rw [hchild] at heq
      cases heq
    next idx2 c heq =>
      rw [hchild] at heq
      injection heq with heq2
      obtain ⟨h1, h2⟩ := Prod.mk.injEq .. ▸ heq2
      subst h1
      subst h2
      simp only [hif4, Bool.false_eq_true, false_and, if_false]
      rw [if_pos trivial]
  rw [hstep]
  cases nd with
  | node4 keys childs => exact absurd rfl hk
  | node16 keys childs =>
    have hkeys : keys ≠ [] := by
      intro hnil
      subst hnil
      simp [VNodeF.child, List.findIdx?_nil] at hchild
    rw [show (VNodeF.node16 keys childs).replace idx none =
        some (.node16 (keys.eraseIdx idx) (childs.eraseIdx idx)) from by
      rw [VNodeF.replace, if_neg (by simpa using hkeys)]]
    simp only [Option.some_bind]
    by_cases hmin : keys.length ≤ 5
    · rw [if_pos ⟨by simp only [VNodeF.min, decide_eq_true_eq]; exact hmin,
        by simp [hif4]⟩]
      refine ⟨.node4 ((keys.eraseIdx idx).take 4) ((childs.eraseIdx idx).take 4), ?_, ?_, ?_⟩
      · rfl
      · simp only [kindOf, occupancy, shrinkThreshold, smallerKind]
        constructor
        · intro _; omega
        · intro _; trivial
      · intro hno
        simp only [occupancy, shrinkThreshold, kindOf] at hno
        omega
    · rw [if_neg (by
        intro hand
        rcases hand with ⟨h1, h2⟩
        simp only [VNodeF.min, decide_eq_true_eq] at h1
        omega)]
      refine ⟨.node16 (keys.eraseIdx idx) (childs.eraseIdx idx), rfl, ?_, ?_⟩
      · simp only [kindOf, occupancy, shrinkThreshold, smallerKind]
        constructor
        · intro h; exact absurd h (by simp)
        · intro h; omega
      · intro _; trivial
  | node48 lth slots childs =>
    rcases hsl : slots.getD idx 0 with _ | j
    · exfalso
      have : (VNodeF.node48 lth slots childs).child b = some (idx, Art.leaf key lv) := hchild
      rw [VNodeF.child] at this
      rcases hsb : slots.getD b 0 with _ | j2
      · rw [hsb] at this; cases this
      · rw [hsb] at this
        rw [Option.map_eq_some'] at this
        obtain ⟨c, hc1, hc2⟩ := this
        obtain ⟨h1, h2⟩ := Prod.mk.injEq .. ▸ hc2
        subst h1
        rw [hsb] at hsl
        cases hsl
    · rw [show (VNodeF.node48 lth slots childs).replace idx none =
          some (.node48 (lth - 1) (slots.set idx 0) (childs.set j none)) from by
        rw [VNodeF.replace, hsl]]
      simp only [Option.some_bind]
      by_cases hmin : lth ≤ 17
      · rw [if_pos ⟨by simp only [VNodeF.min, decide_eq_true_eq]; exact hmin,
          by simp [hif4]⟩]
        refine ⟨_, rfl, ?_, ?_⟩
        · simp only [VNodeF.shrink, kindOf, occupancy, shrinkThreshold, smallerKind]
          constructor
          · intro _; omega
          · intro _; trivial
        · intro hno
          simp only [occupancy, shrinkThreshold, kindOf] at hno
          omega
      · rw [if_neg (by
          intro hand
          rcases hand with ⟨h1, h2⟩
          simp only [VNodeF.min, decide_eq_true_eq] at h1
          omega)]
        refine ⟨_, rfl, ?_, ?_⟩
        · simp only [kindOf, occupancy, shrinkThreshold, smallerKind]
          constructor
          · intro h; cases h
          · intro h; omega
        · intro _; trivial
  | node256 lth childs =>
    rw [show (VNodeF.node256 lth childs).replace idx none =
        some (.node256 (lth - 1) (childs.set idx none)) from by rw [VNodeF.replace]]
    simp only [Option.some_bind]
    by_cases hmin : lth ≤ 49
    · rw [if_pos ⟨by simp only [VNodeF.min, decide_eq_true_eq]; exact hmin,
        by simp [hif4]⟩]
      refine ⟨_, rfl, ?_, ?_⟩
      · simp only [VNodeF.shrink, kindOf, occupancy, shrinkThreshold, smallerKind]
        constructor
        · intro _; omega
        · intro _; trivial
      · intro hno
        simp only [occupancy, shrinkThreshold, kindOf] at hno
        omega
    · rw [if_neg (by
        intro hand
        rcases hand with ⟨h1, h2⟩
        simp only [VNodeF.min, decide_eq_true_eq] at h1
        omega)]
      refine ⟨_, rfl, ?_, ?_⟩
      · simp only [kindOf, occupancy, shrinkThreshold, smallerKind]
        constructor
        · intro h; exact absurd h (by simp)
        · intro h; omega
      · intro _; trivial

/-- Witness for C5: deleting key `[3]` from a five-child `node16` (the
shrink fixture of the test suite) shrinks it to a `node4`. -/
theorem c5_shrink_thresholds_witness :
    (kindOf (VNodeF.node16 [1, 2, 3, 4, 5]
        [Art.leaf [1] 1, Art.leaf [2] 2, Art.leaf [3] 3, Art.leaf [4] 4, Art.leaf [5] 5]) ≠
      NodeKind.k4) ∧
    ∃ nd2, artDel (.inner [] (VNodeF.node16 [1, 2, 3, 4, 5]
          [Art.leaf [1] 1, Art.leaf [2] 2, Art.leaf [3] 3, Art.leaf [4] 4,
            Art.leaf [5] (5 : Nat)])) [3] 0 = some (.inner [] nd2) ∧
      (kindOf nd2 = smallerKind (kindOf (VNodeF.node16 [1, 2, 3, 4, 5]
          [Art.leaf [1] 1, Art.leaf [2] 2, Art.leaf [3] 3, Art.leaf [4] 4,
            Art.leaf [5] (5 : Nat)])) ↔
        occupancy (VNodeF.node16 ([1, 2, 3, 4, 5] : List Nat)
          ([Art.leaf [1] 1, Art.leaf [2] 2, Art.leaf [3] 3, Art.leaf [4] 4,
            Art.leaf [5] (5 : Nat)])) - 1 ≤
          shrinkThreshold (kindOf (VNodeF.node16 ([1, 2, 3, 4, 5] : List Nat)
            [Art.leaf [1] 1, Art.leaf [2] 2, Art.leaf [3] 3, Art.leaf [4] 4,
              Art.leaf [5] (5 : Nat)]))) ∧
      (¬ occupancy (VNodeF.node16 ([1, 2, 3, 4, 5] : List Nat)
            [Art.leaf [1] 1, Art.leaf [2] 2, Art.leaf [3] 3, Art.leaf [4] 4,
              Art.leaf [5] (5 : Nat)]) - 1 ≤
          shrinkThreshold (kindOf (VNodeF.node16 ([1, 2, 3, 4, 5] : List Nat)
            [Art.leaf [1] 1, Art.leaf [2] 2, Art.leaf [3] 3, Art.leaf [4] 4,
              Art.leaf [5] (5 : Nat)])) →
        kindOf nd2 = kindOf (VNodeF.node16 ([1, 2, 3, 4, 5] : List Nat)
          [Art.leaf [1] 1, Art.leaf [2] 2, Art.leaf [3] 3, Art.leaf [4] 4,
            Art.leaf [5] (5 : Nat)])) :=
  ⟨by decide,
    c5_shrink_thresholds [] _ [3] 0 3 3 2 (by decide) rfl rfl rfl⟩

/-! ## Iterator emission order (C8) -/

theorem getD_some_mem {γ : Type} {l : List (Option γ)} {i : Nat} {c : γ}
    (h : l.getD i none = some c) : some c ∈ l := by
  rw [List.getD_eq_getElem?_getD, ← List.get?_eq_getElem?] at h
  rcases h2 : l.get? i with _ | o
  · rw [h2] at h; simp at h
  · rw [h2] at h
    simp only [Option.getD_some] at h
    subst h
    exact List.get?_mem h2

theorem allLeafKeysNe_child {α : Type} {pfx : Key} {nd : VNodeF (Art α)} {c : Art α}
    (h : allLeafKeysNe (Art.inner pfx nd) = true) (hm : c ∈ childList nd) :
    allLeafKeysNe c = true := by
  rw [allLeafKeysNe] at h
  rw [List.all_eq_true] at h
  exact h ⟨c, hm⟩ (List.mem_attach _ _)

theorem allLeafKeysNe_leaf {α : Type} {k : Key} {v : α}
    (h : allLeafKeysNe (Art.leaf k v) = true) : k ≠ [] := by
  rw [allLeafKeysNe] at h
  simp only [Bool.not_eq_true'] at h
  intro hk
  subst hk
  simp [List.isEmpty] at h

theorem mem_childList_of_next {β : Type} {nd : VNodeF β} {p : Option Nat} {b : Nat} {c : β}
    (h : nd.next p = some (b, c)) : c ∈ childList nd := by
  cases nd with
  | node4 keys childs =>
    cases p with
    | none =>
      simp only [VNodeF.next, Option.bind_eq_some, Option.map_eq_some'] at h
      obtain ⟨b0, hb0, c0, hc0, hbc⟩ := h
      obtain ⟨h1, h2⟩ := Prod.mk.injEq .. ▸ hbc
      subst h2
      exact List.mem_of_mem_head? hc0
    | some k =>
      simp only [VNodeF.next] at h
      split at h
      next p2 heq =>
        injection h with h2
        subst h2
        exact (List.of_mem_zip (List.mem_of_find?_eq_some heq)).2
      next => cases h
  | node16 keys childs =>
    cases p with
    | none =>
      simp only [VNodeF.next, Option.bind_eq_some, Option.map_eq_some'] at h
      obtain ⟨b0, hb0, c0, hc0, hbc⟩ := h
      obtain ⟨h1, h2⟩ := Prod.mk.injEq .. ▸ hbc
      subst h2
      exact List.mem_of_mem_head? hc0
    | some k =>
      simp only [VNodeF.next] at h
      split at h
      next p2 heq =>
        injection h with h2
        subst h2
        exact (List.of_mem_zip (List.mem_of_find?_eq_some heq)).2
      next => cases h
  | node48 lth slots childs =>
    simp only [VNodeF.next, Option.bind_eq_some, Option.map_eq_some'] at h
    obtain ⟨b0, hb0, c0, hc0, hbc⟩ := h
    obtain ⟨h1, h2⟩ := Prod.mk.injEq .. ▸ hbc
    subst h2
    simp only [childList]
    exact List.reduceOption_mem_iff.mpr (getD_some_mem hc0)
  | node256 lth childs =>
    simp only [VNodeF.next, Option.bind_eq_some, Option.map_eq_some'] at h
    obtain ⟨b0, hb0, c0, hc0, hbc⟩ := h
    obtain ⟨h1, h2⟩ := Prod.mk.injEq .. ▸ hbc
    subst h2
    simp only [childList]
    exact List.reduceOption_mem_iff.mpr (getD_some_mem hc0)

theorem mem_childList_of_prev {β : Type} {nd : VNodeF β} {p : Option Nat} {b : Nat} {c : β}
    (h : nd.prev p = some (some (b, c))) : c ∈ childList nd := by
  cases nd with
  | node4 keys childs =>
    cases p with
    | none =>
      simp only [VNodeF.prev] at h
      split at h
      · cases h
      · injection h with h2
        simp only [Option.bind_eq_some, Option.map_eq_some'] at h2
        obtain ⟨b0, hb0, c0, hc0, hbc⟩ := h2
        obtain ⟨h1, h3⟩ := Prod.mk.injEq .. ▸ hbc
        subst h3
        exact List.mem_of_mem_getLast? hc0
    | some k =>
      simp only [VNodeF.prev, Option.some.injEq, Option.map_eq_some'] at h
      rcases hf : (keys.zip childs).reverse.find? (fun p => p.1 < k) with _ | pr
      · rw [hf] at h; simp at h
      · rw [hf] at h
        simp only [Option.map_some', Option.some.injEq, id] at h
        obtain ⟨a, ha1, ha2⟩ := h
        subst ha2
        subst ha1
        exact (List.of_mem_zip (List.mem_reverse.mp (List.mem_of_find?_eq_some hf))).2
  | node16 keys childs =>
    cases p with
    | none =>
      simp only [VNodeF.prev] at h
      split at h
      · cases h
      · injection h with h2
        simp only [Option.bind_eq_some, Option.map_eq_some'] at h2
        obtain ⟨b0, hb0, c0, hc0, hbc⟩ := h2
        obtain ⟨h1, h3⟩ := Prod.mk.injEq .. ▸ hbc
        subst h3
        exact List.mem_of_mem_getLast? hc0
    | some k =>
      simp only [VNodeF.prev] at h
      split at h
      next pr heq =>
        injection h with h2
        injection h2 with h3
        subst h3
        exact (List.of_mem_zip (List.mem_reverse.mp (List.mem_of_find?_eq_some heq))).2
      next => cases h
  | node48 lth slots childs =>
    simp only [VNodeF.prev] at h
    split at h
    next => cases h
    next b0 heq =>
      split at h
      · injection h with h2
        simp only [Option.map_eq_some'] at h2
        obtain ⟨c0, hc0, hbc⟩ := h2
        obtain ⟨h1, h3⟩ := Prod.mk.injEq .. ▸ hbc
        subst h3
        simp only [childList]
        exact List.reduceOption_mem_iff.mpr (getD_some_mem hc0)
      · cases h
  | node256 lth childs =>
    simp only [VNodeF.prev] at h
    split at h
    · cases h
    · split at h
      next b0 heq =>
        injection h with h2
        simp only [Option.map_eq_some'] at h2
        obtain ⟨c0, hc0, hbc⟩ := h2
        obtain ⟨h1, h3⟩ := Prod.mk.injEq .. ▸ hbc
        subst h3
        simp only [childList]
        exact List.reduceOption_mem_iff.mpr (getD_some_mem hc0)
      next => cases h

theorem inRange_congr {α : Type} {i j : Iter α} (hrev : j.reverse = i.reverse)
    (hcur : j.cursor = i.cursor) (hterm : j.terminate = i.terminate) (k : Key) :
    j.inRange k = i.inRange k := by
  rw [Iter.inRange, Iter.inRange, hrev, hcur, hterm]

theorem tryAdvance_spec {α : Type} {i : Iter α} {em : Bool} {i2 : Iter α}
    (hne : IterNe i) (h : i.tryAdvance = some (em, i2)) :
    IterNe i2 ∧ i2.tree = i.tree ∧ i2.closed = i.closed ∧ i2.reverse = i.reverse ∧
    i2.terminate = i.terminate ∧
    (em = false → i2.cursor = i.cursor ∧ i2.key = i.key ∧ i2.value = i.value) ∧
    (em = true → i2.cursor = i2.key ∧ i.inRange i2.key = true ∧ i2.key ≠ []) := by
  obtain ⟨hstack, hroot⟩ := hne
  rw [Iter.tryAdvance] at h
  rcases hs : i.stack with _ | ⟨cp, rest⟩
  · rw [hs] at h; simp only [] at h; cases h
  · rw [hs] at h
    simp only [] at h
    have hrest : ∀ cp2 ∈ rest, allLeafKeysNe cp2.node = true := by
      intro cp2 hm
      exact hstack cp2 (by rw [hs]; exact List.mem_cons_of_mem _ hm)
    have hcp : allLeafKeysNe cp.node = true :=
      hstack cp (by rw [hs]; exact List.mem_cons_self ..)
    rcases hn : cp.node with ⟨lk0, lv0⟩ | ⟨pfx, nd⟩
    · rw [hn] at h; simp only [] at h; cases h
    · rw [hn] at h
      simp only [] at h
      rcases hadv : (if i.reverse then nd.prev cp.pointer else some (nd.next cp.pointer))
        with _ | adv
      · rw [hadv] at h; simp only [] at h; cases h
      · rw [hadv] at h
        rcases adv with _ | ⟨b, child⟩
        · simp only [] at h
          injection h with h2
          obtain ⟨he, hi⟩ := Prod.mk.injEq .. ▸ h2
          subst he
          subst hi
          exact ⟨⟨hrest, hroot⟩, rfl, rfl, rfl, rfl, fun _ => ⟨rfl, rfl, rfl⟩,
            fun hc => absurd hc (by simp)⟩
        · have hchild : child ∈ childList nd := by
            by_cases hrev : i.reverse
            · rw [if_pos hrev] at hadv
              exact mem_childList_of_prev hadv
            · rw [if_neg hrev] at hadv
              injection hadv with h3
              exact mem_childList_of_next h3
          have hcne : allLeafKeysNe child = true :=
            allLeafKeysNe_child (hn ▸ hcp) hchild
          rcases child with ⟨lk, lv⟩ | ⟨cpfx, cnd⟩
          · simp only [] at h
            by_cases hir : i.inRange lk = true
            · rw [if_pos hir] at h
              injection h with h2
              obtain ⟨he, hi⟩ := Prod.mk.injEq .. ▸ h2
              subst he
              subst hi
              have hstk2 : ∀ cp2 ∈ (Checkpoint.mk (Art.inner pfx nd) (some b)) :: rest,
                  allLeafKeysNe cp2.node = true := by
                intro cp2 hm
                rcases List.mem_cons.mp hm with h4 | h4
                · subst h4; exact hn ▸ hcp
                · exact hrest cp2 h4
              exact ⟨⟨hstk2, hroot⟩, rfl, rfl, rfl, rfl, fun hc => absurd hc (by simp),
                fun _ => ⟨rfl, hir, allLeafKeysNe_leaf hcne⟩⟩
            · rw [if_neg hir] at h
              injection h with h2
              obtain ⟨he, hi⟩ := Prod.mk.injEq .. ▸ h2
              subst he
              subst hi
              have hstk2 : ∀ cp2 ∈ (Checkpoint.mk (Art.inner pfx nd) (some b)) :: rest,
                  allLeafKeysNe cp2.node = true := by
                intro cp2 hm
                rcases List.mem_cons.mp hm with h4 | h4
                · subst h4; exact hn ▸ hcp
                · exact hrest cp2 h4
              exact ⟨⟨hstk2, hroot⟩, rfl, rfl, rfl, rfl, fun _ => ⟨rfl, rfl, rfl⟩,
                fun hc => absurd hc (by simp)⟩
          · simp only [] at h
            injection h with h2
            obtain ⟨he, hi⟩ := Prod.mk.injEq .. ▸ h2
            subst he
            subst hi
            have hstk2 : ∀ cp2 ∈ (Checkpoint.mk (Art.inner cpfx cnd) none) ::
                (Checkpoint.mk (Art.inner pfx nd) (some b)) :: rest,
                allLeafKeysNe cp2.node = true := by
              intro cp2 hm
              rcases List.mem_cons.mp hm with h4 | h4
              · subst h4; exact hcne
              · rcases List.mem_cons.mp h4 with h5 | h5
                · subst h5; exact hn ▸ hcp
                · exact hrest cp2 h5
            exact ⟨⟨hstk2, hroot⟩, rfl, rfl, rfl, rfl, fun _ => ⟨rfl, rfl, rfl⟩,
              fun hc => absurd hc (by simp)⟩

theorem iterate_spec {α : Type} :
    ∀ (fuel : Nat) (i i2 : Iter α) (em : Bool), IterNe i →
      Iter.iterate fuel i = some (em, i2) →
      IterNe i2 ∧ i2.tree = i.tree ∧ i2.reverse = i.reverse ∧ i2.terminate = i.terminate ∧
      (em = false → i2.cursor = i.cursor ∧ i2.key = i.key ∧ i2.value = i.value) ∧
      (em = true → i2.cursor = i2.key ∧ i.inRange i2.key = true ∧ i2.key ≠ []) := by
  intro fuel
  induction fuel with
  | zero => intro i i2 em hne h; cases h
  | succ n ih =>
    intro i i2 em hne h
    rw [Iter.iterate] at h
    rcases hs : i.stack with _ | ⟨cp, rest⟩
    · rw [hs] at h
      simp only [] at h
      injection h with h2
      obtain ⟨he, hi⟩ := Prod.mk.injEq .. ▸ h2
      subst he
      subst hi
      exact ⟨⟨fun cp hm => absurd hm (List.not_mem_nil _), hne.2⟩, rfl, rfl, rfl,
        fun _ => ⟨rfl, rfl, rfl⟩, fun hc => absurd hc (by simp)⟩
    · rw [hs] at h
      simp only [] at h
      rcases hta : i.tryAdvance with _ | ⟨em1, i3⟩
      · rw [hta] at h; simp only [] at h; cases h
      · rw [hta] at h
        obtain ⟨hne3, htr, hcl, hrev, hterm, hfalse, htrue⟩ := tryAdvance_spec hne hta
        cases em1 with
        | true =>
          simp only [] at h
          injection h with h2
          obtain ⟨he, hi⟩ := Prod.mk.injEq .. ▸ h2
          subst he
          subst hi
          exact ⟨hne3, htr, hrev, hterm, fun hc => absurd hc (by simp), htrue⟩
        | false =>
          simp only [] at h
          obtain ⟨hc3, hk3, hv3⟩ := hfalse rfl
          obtain ⟨hne2, htr2, hrev2, hterm2, hfalse2, htrue2⟩ := ih i3 i2 em hne3 h
          refine ⟨hne2, htr2.trans htr, hrev2.trans hrev, hterm2.trans hterm, ?_, ?_⟩
          · intro hem
            obtain ⟨ha, hb, hcv⟩ := hfalse2 hem
            exact ⟨ha.trans hc3, hb.trans hk3, hcv.trans hv3⟩
          · intro hem
            obtain ⟨ha, hb, hcv⟩ := htrue2 hem
            refine ⟨ha, ?_, hcv⟩
            rw [← inRange_congr hrev hc3 hterm]
            exact hb

theorem init_spec {α : Type} {i : Iter α} {e nxt : Bool} {i2 : Iter α}
    (hne : IterNe i) (h : i.init = (e, nxt, i2)) :
    IterNe i2 ∧ i2.tree = i.tree ∧ i2.reverse = i.reverse ∧ i2.terminate = i.terminate ∧
    i2.cursor = i.cursor ∧
    (nxt = false → i2.key = i.key ∧ i2.value = i.value) ∧
    (nxt = true → i2.closed = true ∧ i.inRange i2.key = true ∧ i2.key ≠ []) := by
  rw [Iter.init] at h
  rcases hr : i.tree.root with _ | r
  · rw [hr] at h
    simp only [] at h
    obtain ⟨h1, h23⟩ := Prod.mk.injEq .. ▸ h
    obtain ⟨h4, h5⟩ := Prod.mk.injEq .. ▸ h23
    subst h5
    subst h4
    exact ⟨⟨hne.1, hne.2⟩, rfl, rfl, rfl, rfl, fun _ => ⟨rfl, rfl⟩,
      fun hc => absurd hc (by simp)⟩
  · rcases r with ⟨lk, lv⟩ | ⟨pfx, nd⟩
    · rw [hr] at h
      simp only [] at h
      by_cases hir : i.inRange lk = true
      · rw [if_pos hir] at h
        obtain ⟨h1, h2⟩ := Prod.mk.injEq .. ▸ h
        have h4 := (Prod.mk.injEq .. ▸ h2).1
        have h5 := (Prod.mk.injEq .. ▸ h2).2
        subst h5
        subst h4
        have hlk : lk ≠ [] := allLeafKeysNe_leaf (hne.2 _ hr)
        exact ⟨⟨hne.1, hne.2⟩, rfl, rfl, rfl, rfl,
          fun hc => absurd hc (by simp), fun _ => ⟨rfl, hir, hlk⟩⟩
      · rw [if_neg hir] at h
        obtain ⟨h1, h2⟩ := Prod.mk.injEq .. ▸ h
        have h4 := (Prod.mk.injEq .. ▸ h2).1
        have h5 := (Prod.mk.injEq .. ▸ h2).2
        subst h5
        subst h4
        exact ⟨⟨hne.1, hne.2⟩, rfl, rfl, rfl, rfl, fun _ => ⟨rfl, rfl⟩,
          fun hc => absurd hc (by simp)⟩
    · rw [hr] at h
      simp only [] at h
      obtain ⟨h1, h2⟩ := Prod.mk.injEq .. ▸ h
      have h4 := (Prod.mk.injEq .. ▸ h2).1
      have h5 := (Prod.mk.injEq .. ▸ h2).2
      subst h5
      subst h4
      refine ⟨⟨?_, hne.2⟩, rfl, rfl, rfl, rfl, fun _ => ⟨rfl, rfl⟩,
        fun hc => absurd hc (by simp)⟩
      intro cp hm
      rcases List.mem_cons.mp hm with h6 | h6
      · subst h6
        exact hne.2 _ hr
      · cases h6

theorem next_spec {α : Type} {fuel : Nat} {i : Iter α} {em : Bool} {i2 : Iter α}
    (hne : IterNe i) (h : Iter.Next fuel i = some (em, i2)) :
    IterNe i2 ∧ i2.tree = i.tree ∧ i2.reverse = i.reverse ∧ i2.terminate = i.terminate ∧
    (em = false → i2.cursor = i.cursor) ∧
    (em = true → (i2.cursor = i2.key ∨ i2.closed = true) ∧ i.inRange i2.key = true ∧
      i2.key ≠ []) := by
  rw [Iter.Next] at h
  by_cases hc : i.closed = true
  · rw [if_pos hc] at h
    injection h with h2
    obtain ⟨he, hi⟩ := Prod.mk.injEq .. ▸ h2
    subst he
    subst hi
    exact ⟨⟨hne.1, hne.2⟩, rfl, rfl, rfl, fun _ => rfl, fun hc2 => absurd hc2 (by simp)⟩
  · rw [if_neg hc] at h
    rcases hs : i.stack with _ | ⟨cp, rest⟩
    · rw [hs] at h
      simp only [] at h
      rcases hi : i.init with ⟨e, nxt, i3⟩
      rw [hi] at h
      obtain ⟨hne3, htr, hrev, hterm, hcur, hfalse, htrue⟩ := init_spec hne hi
      cases e with
      | true =>
        simp only [] at h
        injection h with h2
        obtain ⟨he2, hi2⟩ := Prod.mk.injEq .. ▸ h2
        subst he2
        subst hi2
        refine ⟨hne3, htr, hrev, hterm, fun _ => hcur, ?_⟩
        intro hem
        obtain ⟨hcl, hir, hk⟩ := htrue hem
        exact ⟨Or.inr hcl, hir, hk⟩
      | false =>
        simp only [] at h
        obtain ⟨hne2, htr2, hrev2, hterm2, hfalse2, htrue2⟩ :=
          iterate_spec fuel i3 i2 em hne3 h
        refine ⟨hne2, htr2.trans htr, hrev2.trans hrev, hterm2.trans hterm, ?_, ?_⟩
        · intro hem
          exact (hfalse2 hem).1.trans hcur
        · intro hem
          obtain ⟨ha, hb, hk⟩ := htrue2 hem
          refine ⟨Or.inl ha, ?_, hk⟩
          rw [← inRange_congr hrev hcur hterm]
          exact hb
    · rw [hs] at h
      simp only [] at h
      obtain ⟨hne2, htr2, hrev2, hterm2, hfalse2, htrue2⟩ :=
        iterate_spec fuel i i2 em hne h
      refine ⟨hne2, htr2, hrev2, hterm2, fun hem => (hfalse2 hem).1, ?_⟩
      intro hem
      obtain ⟨ha, hb, hk⟩ := htrue2 hem
      exact ⟨Or.inl ha, hb, hk⟩

theorem run_closed {α : Type} (n fuel : Nat) (i : Iter α) (hc : i.closed = true) :
    Iter.run n fuel i = ([], i) := by
  cases n with
  | zero => rfl
  | succ m =>
    rw [Iter.run]
    have hnx : Iter.Next fuel i = some (false, i) := by
      rw [Iter.Next, if_pos hc]
    rw [hnx]

theorem cmpBytes_gt_iff_lt : ∀ (a b : Key), cmpBytes a b = .gt ↔ cmpBytes b a = .lt := by
  intro a
  induction a with
  | nil =>
    intro b
    cases b with
    | nil => simp [cmpBytes]
    | cons y ys => simp [cmpBytes]
  | cons x xs ih =>
    intro b
    cases b with
    | nil => simp [cmpBytes]
    | cons y ys =>
      rw [show cmpBytes (x :: xs) (y :: ys) =
        if x < y then .lt else if y < x then .gt else cmpBytes xs ys from rfl]
      rw [show cmpBytes (y :: ys) (x :: xs) =
        if y < x then .lt else if x < y then .gt else cmpBytes ys xs from rfl]
      by_cases hxy : x < y
      · rw [if_pos hxy, if_neg (by omega), if_pos hxy]
        simp
      · by_cases hyx : y < x
        · rw [if_neg hxy, if_pos hyx, if_pos hyx]
          simp
        · rw [if_neg hxy, if_neg hyx, if_neg hyx, if_neg hxy]
          exact ih ys

theorem inRange_true_fst {α : Type} {i : Iter α} {k : Key} (h : i.inRange k = true)
    (hk : i.cursor ≠ [] ∨ i.reverse = false) :
    cmpBytes k i.cursor = (if i.reverse then Ordering.lt else Ordering.gt) := by
  rcases hrev : i.reverse with _ | _
  · rw [if_neg Bool.false_ne_true]
    rw [Iter.inRange, hrev] at h
    rw [if_pos (by simp)] at h
    rw [Bool.and_eq_true] at h
    exact of_decide_eq_true h.1
  · rw [if_pos rfl]
    rw [Iter.inRange, hrev] at h
    rw [if_neg (by simp)] at h
    rw [Bool.and_eq_true, Bool.or_eq_true] at h
    rcases h.1 with h2 | h2
    · exact of_decide_eq_true h2
    · rcases hk with h3 | h3
      · exact absurd (List.length_eq_zero.mp (of_decide_eq_true h2)) h3
      · rw [hrev] at h3
        exact absurd h3 (by simp)

theorem run_chain {α : Type} :
    ∀ (n fuel : Nat) (i : Iter α), IterNe i →
      (∀ k, ((Iter.run n fuel i).1.head? = some k) → i.inRange k = true) ∧
      List.Chain' (fun a b => cmpBytes b a = (if i.reverse then Ordering.lt else Ordering.gt))
        (Iter.run n fuel i).1 := by
  intro n
  induction n with
  | zero =>
    intro fuel i hne
    exact ⟨fun k hk => by exact Option.noConfusion hk, List.chain'_nil⟩
  | succ m ih =>
    intro fuel i hne
    rcases hx : Iter.Next fuel i with _ | ⟨em, i2⟩
    · have hrun : Iter.run (m + 1) fuel i = ([], i) := by
        rw [Iter.run, hx]
      rw [hrun]
      exact ⟨fun k hk => by exact Option.noConfusion hk, List.chain'_nil⟩
    · cases em with
      | false =>
        have hrun : Iter.run (m + 1) fuel i = ([], i2) := by
          rw [Iter.run, hx]
        rw [hrun]
        exact ⟨fun k hk => by exact Option.noConfusion hk, List.chain'_nil⟩
      | true =>
        have hrun : Iter.run (m + 1) fuel i =
            (i2.key :: (Iter.run m fuel i2).1, (Iter.run m fuel i2).2) := by
          rw [Iter.run, hx]
        obtain ⟨hne2, htr, hrev, hterm, hfalse, htrue⟩ := next_spec hne hx
        obtain ⟨hcur, hir, hkne⟩ := htrue rfl
        obtain ⟨ihhead, ihchain⟩ := ih fuel i2 hne2
        rw [hrun]
        constructor
        · intro k hk
          simp only [List.head?_cons, Option.some.injEq] at hk
          rw [← hk]
          exact hir
        · rw [List.chain'_cons']
          constructor
          · intro y hy
            have hy2 : (Iter.run m fuel i2).1.head? = some y := Option.mem_def.mp hy
            have hiry : i2.inRange y = true := ihhead y hy2
            rcases hcur with hcur | hclosed
            · have hfst := inRange_true_fst hiry (Or.inl (by rw [hcur]; exact hkne))
              rw [hcur, hrev] at hfst
              exact hfst
            · exfalso
              have hrc := run_closed m fuel i2 hclosed
              rw [hrc] at hy2
              exact Option.noConfusion hy2
          · have h2 := ihchain
            rw [hrev] at h2
            exact h2

/-- C8: ordered emission.  For any tree whose leaf keys are all nonempty
(every tree built by inserting nonempty keys satisfies this) and any
bounds, the keys emitted by successive `Next` calls of a forward iterator
are strictly ascending in lexicographic byte order, and those of the same
iterator configured with `Reverse()` are strictly descending: each
emission must pass `inRange` against `cursor`, which holds exactly the
previously emitted key. -/
theorem c8_iteration_strictly_ordered {α : Type} (t : Tree α) (start stop : Key)
    (n fuel nr fuelr : Nat)
    (hroot : ∀ r, t.root = some r → allLeafKeysNe r = true) :
    List.Chain' (fun a b => cmpBytes a b = Ordering.lt)
      (Iter.run n fuel (t.Iterator start stop)).1 ∧
    List.Chain' (fun a b => cmpBytes a b = Ordering.gt)
      (Iter.run nr fuelr ((t.Iterator start stop).Reverse)).1 := by
  constructor
  · have h := (run_chain n fuel (t.Iterator start stop)
      ⟨fun cp hm => absurd hm (List.not_mem_nil _), hroot⟩).2
    refine List.Chain'.imp ?_ h
    intro a b hab
    simp only [Tree.Iterator, Bool.false_eq_true, if_false] at hab
    exact (cmpBytes_gt_iff_lt b a).mp hab
  · have h := (run_chain nr fuelr ((t.Iterator start stop).Reverse)
      ⟨fun cp hm => absurd hm (List.not_mem_nil _), hroot⟩).2
    refine List.Chain'.imp ?_ h
    intro a b hab
    simp only [Iter.Reverse, if_pos] at hab
    exact (cmpBytes_gt_iff_lt a b).mpr hab

/-- Witness for C8 on the two-leaf tree with keys `[1]` and `[2]`. -/
theorem c8_iteration_strictly_ordered_witness :
    (∀ r, (Tree.mk (some (Art.inner [] (VNodeF.node4 [1, 2]
        [Art.leaf [1] (0 : Nat), Art.leaf [2] 0]))) : Tree Nat).root = some r →
      allLeafKeysNe r = true) ∧
    List.Chain' (fun a b => cmpBytes a b = Ordering.lt)
      (Iter.run 3 9 ((Tree.mk (some (Art.inner [] (VNodeF.node4 [1, 2]
        [Art.leaf [1] (0 : Nat), Art.leaf [2] 0]))) : Tree Nat).Iterator [] [])).1 ∧
    List.Chain' (fun a b => cmpBytes a b = Ordering.gt)
      (Iter.run 3 9 (((Tree.mk (some (Art.inner [] (VNodeF.node4 [1, 2]
        [Art.leaf [1] (0 : Nat), Art.leaf [2] 0]))) : Tree Nat).Iterator [] []).Reverse)).1 := by
  have hroot : ∀ r, (Tree.mk (some (Art.inner [] (VNodeF.node4 [1, 2]
      [Art.leaf [1] (0 : Nat), Art.leaf [2] 0]))) : Tree Nat).root = some r →
      allLeafKeysNe r = true := by
    intro r hr
    injection hr with hr2
    rw [← hr2]
    rw [allLeafKeysNe]
    simp only [childList, List.attach, List.all_eq_true]
    intro c hc
    have hcm := c.2
    simp only [List.mem_cons, List.not_mem_nil, or_false] at hcm
    rcases hcm with h1 | h1
    · rw [h1, allLeafKeysNe]
      rfl
    · rw [h1, allLeafKeysNe]
      rfl
  exact ⟨hroot,
    (c8_iteration_strictly_ordered _ [] [] 3 9 3 9 hroot).1,
    (c8_iteration_strictly_ordered _ [] [] 3 9 3 9 hroot).2⟩

/-- C1: refuted on the code.  The keys `[1×10]` and `[1×8, 2, 2]` are
distinct, non-empty, and neither is a prefix of the other, yet after
inserting both into an empty tree, `Get` on the second key returns
`(nil, false)`: the leaf expansion for a common prefix of exactly
`MAX_PREFIX = 8` bytes takes the chain branch byte from the *existing*
key, so the new leaf is hung under a branch byte it does not match and
becomes unreachable to `Get`. -/
theorem c1_inserted_key_not_found :
    ((Tree.InsertAll (⟨none⟩ : Tree Nat)
        [([1, 1, 1, 1, 1, 1, 1, 1, 1, 1], 10), ([1, 1, 1, 1, 1, 1, 1, 1, 2, 2], 20)]).bind
      fun t => t.Get [1, 1, 1, 1, 1, 1, 1, 1, 2, 2]) = some none ∧
    ((Tree.InsertAll (⟨none⟩ : Tree Nat)
        [([1, 1, 1, 1, 1, 1, 1, 1, 1, 1], 10), ([1, 1, 1, 1, 1, 1, 1, 1, 2, 2], 20)]).bind
      fun t => t.Get [1, 1, 1, 1, 1, 1, 1, 1, 1, 1]) = some (some 10) := by
  constructor <;>
    simp [Tree.InsertAll, Tree.Insert, Tree.Get, artInsert, artGet, leafInsert,
      leafExpand, comparePrefix, cpGo, maxPrefixLen, VNodeF.child, VNodeF.sortedIdx,
      VNodeF.addChild]

/-- C7: refuted on the code.  Inserting `[1×10]`, `[1×8, 2, 2]`, then
`[1×8, 1, 5]` into an empty tree stores all three keys (`Get` finds the
third), but an unbounded forward iteration emits only the first two: the
`MAX_PREFIX = 8` expansion buried the second key's leaf inside the
branch-byte-1 subtree, so the DFS reaches it *before* the third key; the
emission filter then sees the third key as smaller than the cursor and
silently skips it, so the emitted set is not the full stored set in
range. -/
theorem c7_stored_in_range_key_not_emitted :
    ((Tree.InsertAll (⟨none⟩ : Tree Nat)
        [([1, 1, 1, 1, 1, 1, 1, 1, 1, 1], 10), ([1, 1, 1, 1, 1, 1, 1, 1, 2, 2], 20),
         ([1, 1, 1, 1, 1, 1, 1, 1, 1, 5], 50)]).bind
      fun t => t.Get [1, 1, 1, 1, 1, 1, 1, 1, 1, 5]) = some (some 50) ∧
    ((Tree.InsertAll (⟨none⟩ : Tree Nat)
        [([1, 1, 1, 1, 1, 1, 1, 1, 1, 1], 10), ([1, 1, 1, 1, 1, 1, 1, 1, 2, 2], 20),
         ([1, 1, 1, 1, 1, 1, 1, 1, 1, 5], 50)]).map
      fun t => (Iter.run 4 9 (t.Iterator [] [])).1) =
      some [[1, 1, 1, 1, 1, 1, 1, 1, 1, 1], [1, 1, 1, 1, 1, 1, 1, 1, 2, 2]] := by
  constructor <;>
    simp [Tree.InsertAll, Tree.Insert, Tree.Get, artInsert, artGet, leafInsert,
      leafExpand, comparePrefix, cpGo, maxPrefixLen, VNodeF.child, VNodeF.sortedIdx,
      VNodeF.addChild, VNodeF.replace, VNodeF.full, Tree.Iterator, Iter.run, Iter.Next,
      Iter.iterate, Iter.tryAdvance, Iter.init, Iter.inRange, VNodeF.next, cmpBytes]

/-! ## Structural correctness of insert: helper lemmas -/

theorem lcp_le_length_left : ∀ (a b : Key), lcp a b ≤ a.length := by
  intro a
  induction a with
  | nil => intro b; cases b <;> simp [lcp]
  | cons x xs ih =>
    intro b
    cases b with
    | nil => simp [lcp]
    | cons y ys =>
      rw [show lcp (x :: xs) (y :: ys) = if x = y then lcp xs ys + 1 else 0 from rfl]
      by_cases h : x = y
      · rw [if_pos h]
        have := ih ys
        simp only [List.length_cons]
        omega
      · rw [if_neg h]
        omega

theorem lcp_get?_eq : ∀ (a b : Key) (j : Nat), j < lcp a b → a.get? j = b.get? j := by
  intro a
  induction a with
  | nil => intro b j h; cases b <;> simp [lcp] at h
  | cons x xs ih =>
    intro b j h
    cases b with
    | nil => simp [lcp] at h
    | cons y ys =>
      rw [show lcp (x :: xs) (y :: ys) = if x = y then lcp xs ys + 1 else 0 from rfl] at h
      by_cases hxy : x = y
      · rw [if_pos hxy] at h
        cases j with
        | zero => simp [hxy]
        | succ m => exact ih ys m (by omega)
      · rw [if_neg hxy] at h
        omega

theorem lcp_get?_ne : ∀ (a b : Key) {x y : Nat}, a.get? (lcp a b) = some x →
    b.get? (lcp a b) = some y → x ≠ y := by
  intro a
  induction a with
  | nil => intro b x y hx hy; cases hx
  | cons x0 xs ih =>
    intro b x y hx hy
    cases b with
    | nil => cases hy
    | cons y0 ys =>
      rw [show lcp (x0 :: xs) (y0 :: ys) = if x0 = y0 then lcp xs ys + 1 else 0 from rfl]
        at hx hy
      by_cases hxy : x0 = y0
      · rw [if_pos hxy] at hx hy
        exact ih ys hx hy
      · rw [if_neg hxy] at hx hy
        injection hx with hx2
        injection hy with hy2
        rw [← hx2, ← hy2]
        exact hxy

theorem lcp_take_left : ∀ (a b : Key) (m : Nat), lcp (a.take m) b = Nat.min m (lcp a b) := by
  intro a
  induction a with
  | nil =>
    intro b m
    rw [List.take_nil]
    cases b <;> simp [lcp]
  | cons x xs ih =>
    intro b m
    cases m with
    | zero =>
      rw [List.take_zero]
      cases b <;> simp [lcp]
    | succ m2 =>
      cases b with
      | nil => simp [lcp]
      | cons y ys =>
        rw [List.take_succ_cons]
        rw [show lcp (x :: xs.take m2) (y :: ys) = if x = y then lcp (xs.take m2) ys + 1
          else 0 from rfl]
        rw [show lcp (x :: xs) (y :: ys) = if x = y then lcp xs ys + 1 else 0 from rfl]
        by_cases hxy : x = y
        · rw [if_pos hxy, if_pos hxy, ih ys m2]
          simp only [Nat.min_def]
          split <;> split <;> omega
        · rw [if_neg hxy, if_neg hxy]
          simp

theorem sortedIdx_cons {a k : Nat} {t : List Nat} :
    VNodeF.sortedIdx (a :: t) k = if k ≤ a then 0 else VNodeF.sortedIdx t k + 1 := by
  by_cases h : k ≤ a
  · rw [if_pos h, VNodeF.sortedIdx, List.findIdx?_cons, if_pos (by simpa using h)]
  · rw [if_neg h, VNodeF.sortedIdx, VNodeF.sortedIdx, List.findIdx?_cons,
      if_neg (by simpa using h), List.findIdx?_succ]
    rcases hf : List.findIdx? (fun b => decide (k ≤ b)) t with _ | i
    · simp
    · simp

theorem sortedIdx_le_length (keys : List Nat) (k : Nat) :
    VNodeF.sortedIdx keys k ≤ keys.length := by
  induction keys with
  | nil => rw [sortedIdx_nil]; simp
  | cons a t ih =>
    rw [sortedIdx_cons]
    by_cases h : k ≤ a
    · rw [if_pos h]; simp
    · rw [if_neg h]
      simp only [List.length_cons]
      omega

theorem sortedIdx_insertIdx_self (keys : List Nat) (b : Nat) :
    VNodeF.sortedIdx (List.insertIdx (VNodeF.sortedIdx keys b) b keys) b =
      VNodeF.sortedIdx keys b := by
  induction keys with
  | nil =>
    rw [sortedIdx_nil, List.insertIdx_zero, sortedIdx_cons, if_pos le_rfl]
  | cons a t ih =>
    rw [sortedIdx_cons]
    by_cases h : b ≤ a
    · rw [if_pos h, List.insertIdx_zero, sortedIdx_cons, if_pos le_rfl]
    · rw [if_neg h, List.insertIdx_succ_cons, sortedIdx_cons, if_neg h, ih]

theorem sortedIdx_mem {keys : List Nat} {k : Nat}
    (hs : List.Pairwise (fun a b => a < b) keys) (hm : k ∈ keys) :
    VNodeF.sortedIdx keys k < keys.length ∧
      keys.getD (VNodeF.sortedIdx keys k) 0 = k := by
  induction keys with
  | nil => cases hm
  | cons a t ih =>
    rw [List.pairwise_cons] at hs
    rw [sortedIdx_cons]
    rcases List.mem_cons.mp hm with he | ht
    · subst he
      rw [if_pos le_rfl]
      exact ⟨by simp, rfl⟩
    · have hak : a < k := hs.1 k ht
      rw [if_neg (by omega)]
      obtain ⟨h1, h2⟩ := ih hs.2 ht
      exact ⟨by simpa using h1, by simpa using h2⟩

theorem insertIdx_get?_self {γ : Type} : ∀ (l : List γ) (x : γ) (n : Nat), n ≤ l.length →
    (List.insertIdx n x l).get? n = some x := by
  intro l
  induction l with
  | nil =>
    intro x n hn
    have : n = 0 := by simpa using hn
    subst this
    rfl
  | cons a t ih =>
    intro x n hn
    cases n with
    | zero => rfl
    | succ m =>
      rw [List.insertIdx_succ_cons]
      exact ih x m (by simpa using hn)

theorem insertIdx_get?_lt {γ : Type} : ∀ (l : List γ) (x : γ) (n j : Nat), j < n →
    (List.insertIdx n x l).get? j = l.get? j := by
  intro l
  induction l with
  | nil =>
    intro x n j h
    cases n with
    | zero => omega
    | succ m => rfl
  | cons a t ih =>
    intro x n j h
    cases n with
    | zero => omega
    | succ m =>
      rw [List.insertIdx_succ_cons]
      cases j with
      | zero => rfl
      | succ i => exact ih x m i (by omega)

theorem pairwise_insertIdx_sortedIdx {keys : List Nat} {b : Nat}
    (hs : List.Pairwise (fun x y => x < y) keys) (hb : b ∉ keys) :
    List.Pairwise (fun x y => x < y)
      (List.insertIdx (VNodeF.sortedIdx keys b) b keys) := by
  induction keys with
  | nil =>
    rw [sortedIdx_nil, List.insertIdx_zero]
    exact List.pairwise_singleton _ _
  | cons a t ih =>
    rw [List.pairwise_cons] at hs
    have hba : b ≠ a := fun he => hb (he ▸ List.mem_cons_self a t)
    rw [sortedIdx_cons]
    by_cases h : b ≤ a
    · rw [if_pos h, List.insertIdx_zero, List.pairwise_cons]
      have hblt : b < a := lt_of_le_of_ne h hba
      refine ⟨?_, List.pairwise_cons.mpr hs⟩
      intro x hx
      rcases List.mem_cons.mp hx with he | ht
      · omega
      · exact lt_trans hblt (hs.1 x ht)
    · rw [if_neg h, List.insertIdx_succ_cons, List.pairwise_cons]
      refine ⟨?_, ih hs.2 (fun hm => hb (List.mem_cons_of_mem a hm))⟩
      intro x hx
      rw [List.mem_insertIdx (sortedIdx_le_length t b)] at hx
      rcases hx with he | ht
      · omega
      · exact hs.1 x ht

theorem get?_some_lt_length {γ : Type} {l : List γ} {n : Nat} {x : γ}
    (h : l.get? n = some x) : n < l.length := by
  by_contra hc
  rw [List.get?_eq_getElem?, List.getElem?_eq_none (by omega)] at h
  cases h

theorem getD_some_lt_length {γ : Type} {l : List (Option γ)} {j : Nat} {c : γ}
    (h : l.getD j none = some c) : j < l.length := by
  by_contra hc
  rw [List.getD_eq_getElem?_getD, List.getElem?_eq_none (by omega)] at h
  cases h

theorem getD_set_self {γ : Type} {l : List γ} {j : Nat} {x : γ} {d : γ} (h : j < l.length) :
    (l.set j x).getD j d = x := by
  rw [List.getD_eq_getElem?_getD, List.getElem?_set_self h]
  rfl

theorem getD_set_ne {γ : Type} {l : List γ} {i j : Nat} {x : γ} {d : γ} (h : i ≠ j) :
    (l.set i x).getD j d = l.getD j d := by
  rw [List.getD_eq_getElem?_getD, List.getElem?_set_ne h, ← List.getD_eq_getElem?_getD]

theorem getD_replicate_of_lt {γ : Type} {n i : Nat} {a d : γ} (h : i < n) :
    (List.replicate n a).getD i d = a := by
  induction n generalizing i with
  | zero => omega
  | succ m ih =>
    cases i with
    | zero => rfl
    | succ j =>
      rw [List.replicate_succ]
      exact ih (by omega)

theorem mem_childList_of_child {β : Type} {nd : VNodeF β} {b i : Nat} {c : β}
    (h : nd.child b = some (i, c)) : c ∈ childList nd := by
  cases nd with
  | node4 keys childs =>
    simp only [VNodeF.child] at h
    split at h
    · rw [Option.map_eq_some'] at h
      obtain ⟨c', hc', hec⟩ := h
      obtain ⟨h1, h2⟩ := Prod.mk.injEq .. ▸ hec
      subst h2
      simp only [childList]
      exact List.get?_mem hc'
    · exact absurd h (by simp)
  | node16 keys childs =>
    simp only [VNodeF.child] at h
    split at h
    next i2 heq =>
      rw [Option.map_eq_some'] at h
      obtain ⟨c', hc', hec⟩ := h
      obtain ⟨h1, h2⟩ := Prod.mk.injEq .. ▸ hec
      subst h2
      simp only [childList]
      exact List.get?_mem hc'
    next => exact absurd h (by simp)
  | node48 lth slots childs =>
    simp only [VNodeF.child] at h
    split at h
    next => exact absurd h (by simp)
    next j heq =>
      rw [Option.map_eq_some'] at h
      obtain ⟨c', hc', hec⟩ := h
      obtain ⟨h1, h2⟩ := Prod.mk.injEq .. ▸ hec
      subst h2
      simp only [childList]
      exact List.reduceOption_mem_iff.mpr (getD_some_mem hc')
  | node256 lth childs =>
    simp only [VNodeF.child] at h
    rw [Option.map_eq_some'] at h
    obtain ⟨c', hc', hec⟩ := h
    obtain ⟨h1, h2⟩ := Prod.mk.injEq .. ▸ hec
    subst h2
    simp only [childList]
    exact List.reduceOption_mem_iff.mpr (getD_some_mem hc')

theorem node4_child_none_not_mem {β : Type} {keys : List Nat} {childs : List β} {b : Nat}
    (hs : List.Pairwise (fun x y => x < y) keys) (hlen : keys.length = childs.length)
    (h : VNodeF.child (VNodeF.node4 keys childs) b = none) : b ∉ keys := by
  intro hm
  obtain ⟨h1, h2⟩ := sortedIdx_mem hs hm
  simp only [VNodeF.child] at h
  rw [if_pos ⟨h1, h2⟩] at h
  rw [Option.map_eq_none'] at h
  rw [List.get?_eq_getElem?, List.getElem?_eq_none_iff] at h
  omega

theorem node16_child_none_not_mem {β : Type} {keys : List Nat} {childs : List β} {b : Nat}
    (hlen : keys.length = childs.length)
    (h : VNodeF.child (VNodeF.node16 keys childs) b = none) : b ∉ keys := by
  intro hm
  simp only [VNodeF.child] at h
  split at h
  next i2 heq =>
    rw [Option.map_eq_none'] at h
    obtain ⟨hi2, _⟩ := List.findIdx?_eq_some_iff_findIdx_eq.mp heq
    rw [List.get?_eq_getElem?, List.getElem?_eq_none_iff] at h
    omega
  next heq =>
    rw [List.findIdx?_eq_none_iff] at heq
    have := heq b hm
    simp at this

theorem replace_some_spec {β : Type} {nd : VNodeF β} {b i : Nat} {c c2 : β} {nd' : VNodeF β}
    (hch : nd.child b = some (i, c))
    (hrep : nd.replace i (some c2) = some nd') :
    nd'.child b = some (i, c2) ∧
    nodeShape nd' = nodeShape nd ∧
    (∀ x, x ∈ childList nd' → x = c2 ∨ x ∈ childList nd) := by
  cases nd with
  | node4 keys childs =>
    simp only [VNodeF.replace] at hrep
    injection hrep with hrep2
    subst hrep2
    simp only [VNodeF.child] at hch
    split at hch
    next hcond =>
      rw [Option.map_eq_some'] at hch
      obtain ⟨c', hc', hec⟩ := hch
      obtain ⟨h1, h2⟩ := Prod.mk.injEq .. ▸ hec
      subst h1
      have hlt : VNodeF.sortedIdx keys b < childs.length := get?_some_lt_length hc'
      refine ⟨?_, ?_, ?_⟩
      · simp only [VNodeF.child]
        rw [if_pos hcond, List.get?_eq_getElem?, List.getElem?_set_self hlt]
        rfl
      · simp only [nodeShape, List.length_set]
      · intro x hx
        simp only [childList] at hx ⊢
        rcases List.mem_or_eq_of_mem_set hx with hm | he
        · exact Or.inr hm
        · exact Or.inl he
    next => exact absurd hch (by simp)
  | node16 keys childs =>
    simp only [VNodeF.replace] at hrep
    injection hrep with hrep2
    subst hrep2
    simp only [VNodeF.child] at hch
    split at hch
    next i2 heq =>
      rw [Option.map_eq_some'] at hch
      obtain ⟨c', hc', hec⟩ := hch
      obtain ⟨h1, h2⟩ := Prod.mk.injEq .. ▸ hec
      subst h1
      have hlt : i2 < childs.length := get?_some_lt_length hc'
      refine ⟨?_, ?_, ?_⟩
      · simp only [VNodeF.child]
        rw [heq]
        simp only []
        rw [List.get?_eq_getElem?, List.getElem?_set_self hlt]
        rfl
      · simp only [nodeShape, List.length_set]
      · intro x hx
        simp only [childList] at hx ⊢
        rcases List.mem_or_eq_of_mem_set hx with hm | he
        · exact Or.inr hm
        · exact Or.inl he
    next => exact absurd hch (by simp)
  | node48 lth slots childs =>
    simp only [VNodeF.child] at hch
    split at hch
    next => exact absurd hch (by simp)
    next j heq =>
      rw [Option.map_eq_some'] at hch
      obtain ⟨c', hc', hec⟩ := hch
      obtain ⟨h1, h2⟩ := Prod.mk.injEq .. ▸ hec
      subst h1
      have hlt : j < childs.length := getD_some_lt_length hc'
      simp only [VNodeF.replace] at hrep
      rw [heq] at hrep
      simp only [] at hrep
      injection hrep with hrep2
      subst hrep2
      refine ⟨?_, ?_, ?_⟩
      · simp only [VNodeF.child]
        rw [heq]
        simp only []
        rw [getD_set_self hlt]
        rfl
      · simp only [nodeShape, List.length_set]
      · intro x hx
        simp only [childList] at hx ⊢
        rw [List.reduceOption_mem_iff] at hx
        rcases List.mem_or_eq_of_mem_set hx with hm | he
        · exact Or.inr (List.reduceOption_mem_iff.mpr hm)
        · injection he with he2
          exact Or.inl he2
  | node256 lth childs =>
    simp only [VNodeF.child] at hch
    rw [Option.map_eq_some'] at hch
    obtain ⟨c', hc', hec⟩ := hch
    obtain ⟨h1, h2⟩ := Prod.mk.injEq .. ▸ hec
    subst h1
    have hlt : b < childs.length := getD_some_lt_length hc'
    simp only [VNodeF.replace] at hrep
    injection hrep with hrep2
    subst hrep2
    refine ⟨?_, ?_, ?_⟩
    · simp only [VNodeF.child]
      rw [getD_set_self hlt]
      rfl
    · simp only [nodeShape, List.length_set]
    · intro x hx
      simp only [childList] at hx ⊢
      rw [List.reduceOption_mem_iff] at hx
      rcases List.mem_or_eq_of_mem_set hx with hm | he
      · exact Or.inr (List.reduceOption_mem_iff.mpr hm)
      · injection he with he2
        exact Or.inl he2

theorem addChild_spec {β : Type} {nd : VNodeF β} {b : Nat} {c : β} {nd' : VNodeF β}
    (hsh : nodeShape nd = true) (hb : b < 256)
    (hnone : nd.child b = none)
    (hadd : nd.addChild b c = some nd') :
    nodeShape nd' = true ∧ (∃ j, nd'.child b = some (j, c)) ∧
      (∀ x, x ∈ childList nd' → x = c ∨ x ∈ childList nd) := by
  cases nd with
  | node4 keys childs =>
    simp only [nodeShape, Bool.and_eq_true, decide_eq_true_eq] at hsh
    obtain ⟨hlen, hsorted⟩ := hsh
    have hnm : b ∉ keys := node4_child_none_not_mem hsorted hlen hnone
    simp only [VNodeF.addChild] at hadd
    injection hadd with hadd2
    subst hadd2
    have hsle : VNodeF.sortedIdx keys b ≤ keys.length := sortedIdx_le_length keys b
    refine ⟨?_, ⟨VNodeF.sortedIdx keys b, ?_⟩, ?_⟩
    · simp only [nodeShape, Bool.and_eq_true, decide_eq_true_eq]
      constructor
      · rw [List.length_insertIdx _ _ hsle, List.length_insertIdx _ _ (hlen ▸ hsle), hlen]
      · exact pairwise_insertIdx_sortedIdx hsorted hnm
    · simp only [VNodeF.child]
      rw [sortedIdx_insertIdx_self keys b]
      have hgd : (List.insertIdx (VNodeF.sortedIdx keys b) b keys).getD
          (VNodeF.sortedIdx keys b) 0 = b := by
        rw [List.getD_eq_getElem?_getD, ← List.get?_eq_getElem?,
          insertIdx_get?_self keys b _ hsle]
        rfl
      rw [if_pos ⟨by rw [List.length_insertIdx _ _ hsle]; omega, hgd⟩]
      rw [insertIdx_get?_self childs c _ (hlen ▸ hsle)]
      rfl
    · intro x hx
      simp only [childList] at hx ⊢
      rw [List.mem_insertIdx (hlen ▸ hsle)] at hx
      exact hx
  | node16 keys childs =>
    simp only [nodeShape, Bool.and_eq_true, decide_eq_true_eq] at hsh
    obtain ⟨hlen, hsorted⟩ := hsh
    have hnm : b ∉ keys := node16_child_none_not_mem hlen hnone
    simp only [VNodeF.addChild] at hadd
    injection hadd with hadd2
    subst hadd2
    have hsle : VNodeF.sortedIdx keys b ≤ keys.length := sortedIdx_le_length keys b
    have hlen2 : (List.insertIdx (VNodeF.sortedIdx keys b) b keys).length =
        keys.length + 1 := List.length_insertIdx _ _ hsle
    refine ⟨?_, ⟨VNodeF.sortedIdx keys b, ?_⟩, ?_⟩
    · simp only [nodeShape, Bool.and_eq_true, decide_eq_true_eq]
      constructor
      · rw [hlen2, List.length_insertIdx _ _ (hlen ▸ hsle), hlen]
      · exact pairwise_insertIdx_sortedIdx hsorted hnm
    · have hget : (List.insertIdx (VNodeF.sortedIdx keys b) b keys).get?
          (VNodeF.sortedIdx keys b) = some b := insertIdx_get?_self keys b _ hsle
      obtain ⟨hblt, hgetE⟩ := List.getElem?_eq_some.mp (List.get?_eq_getElem? .. ▸ hget)
      have hfind : List.findIdx? (fun x => decide (x = b))
          (List.insertIdx (VNodeF.sortedIdx keys b) b keys) = some (VNodeF.sortedIdx keys b) := by
        rw [List.findIdx?_eq_some_iff_findIdx_eq]
        refine ⟨hblt, ?_⟩
        rw [List.findIdx_eq hblt]
        constructor
        · simp [hgetE]
        · intro j hji
          have hjk : j < keys.length := by omega
          rw [List.getElem_insertIdx_of_lt keys b _ j hji hjk]
          simp only [decide_eq_false_iff_not]
          intro he
          exact hnm (he ▸ List.getElem_mem hjk)
      simp only [VNodeF.child]
      rw [hfind]
      simp only []
      rw [insertIdx_get?_self childs c _ (hlen ▸ hsle)]
      rfl
    · intro x hx
      simp only [childList] at hx ⊢
      rw [List.mem_insertIdx (hlen ▸ hsle)] at hx
      exact hx
  | node48 lth slots childs =>
    simp only [nodeShape, Bool.and_eq_true, decide_eq_true_eq] at hsh
    obtain ⟨hslots, hchilds⟩ := hsh
    simp only [VNodeF.addChild] at hadd
    split at hadd
    next i heq =>
      injection hadd with hadd2
      subst hadd2
      obtain ⟨hi, _⟩ := List.findIdx?_eq_some_iff_findIdx_eq.mp heq
      refine ⟨?_, ⟨b, ?_⟩, ?_⟩
      · simp only [nodeShape, Bool.and_eq_true, decide_eq_true_eq, List.length_set]
        exact ⟨hslots, hchilds⟩
      · simp only [VNodeF.child]
        rw [getD_set_self (by omega)]
        simp only []
        rw [getD_set_self hi]
        rfl
      · intro x hx
        simp only [childList] at hx ⊢
        rw [List.reduceOption_mem_iff] at hx
        rcases List.mem_or_eq_of_mem_set hx with hm | he
        · exact Or.inr (List.reduceOption_mem_iff.mpr hm)
        · injection he with he2
          exact Or.inl he2
    next => cases hadd
  | node256 lth childs =>
    simp only [nodeShape, decide_eq_true_eq] at hsh
    simp only [VNodeF.addChild] at hadd
    injection hadd with hadd2
    subst hadd2
    refine ⟨?_, ⟨b, ?_⟩, ?_⟩
    · simp only [nodeShape, decide_eq_true_eq, List.length_set]
      exact hsh
    · simp only [VNodeF.child]
      rw [getD_set_self (by omega)]
      rfl
    · intro x hx
      simp only [childList] at hx ⊢
      rw [List.reduceOption_mem_iff] at hx
      rcases List.mem_or_eq_of_mem_set hx with hm | he
      · exact Or.inr (List.reduceOption_mem_iff.mpr hm)
      · injection he with he2
        exact Or.inl he2

theorem foldl_set_length {γ : Type} (f : Nat → Nat) (g : Nat → γ) :
    ∀ (l : List Nat) (init : List γ),
      (l.foldl (fun sl i => sl.set (f i) (g i)) init).length = init.length := by
  intro l
  induction l with
  | nil => intro init; rfl
  | cons a t ih =>
    intro init
    rw [List.foldl_cons, ih, List.length_set]

theorem foldl_set_getD_of_ne {γ : Type} (f : Nat → Nat) (g : Nat → γ) (b : Nat) (d : γ) :
    ∀ (l : List Nat) (init : List γ), (∀ i ∈ l, f i ≠ b) →
      (l.foldl (fun sl i => sl.set (f i) (g i)) init).getD b d = init.getD b d := by
  intro l
  induction l with
  | nil => intro init _; rfl
  | cons a t ih =>
    intro init h
    rw [List.foldl_cons, ih _ (fun i hi => h i (List.mem_cons_of_mem a hi)),
      getD_set_ne (h a (List.mem_cons_self a t))]

theorem rangeMap_getD {γ : Type} (f : Nat → γ) (n b : Nat) (d : γ) (h : b < n) :
    ((List.range n).map f).getD b d = f b := by
  rw [List.getD_eq_getElem?_getD, List.getElem?_map, List.getElem?_range h]
  rfl

theorem grow_spec {β : Type} {nd : VNodeF β} {nd' : VNodeF β}
    (hsh : nodeShape nd = true) (hfull : nd.full = true)
    (hgrow : nd.grow = some nd') :
    nodeShape nd' = true ∧
    (∀ b, b < 256 → nd.child b = none → nd'.child b = none) ∧
    (∀ x, x ∈ childList nd' → x ∈ childList nd) := by
  cases nd with
  | node4 keys childs =>
    simp only [VNodeF.grow] at hgrow
    injection hgrow with h2
    subst h2
    simp only [nodeShape, Bool.and_eq_true, decide_eq_true_eq] at hsh
    obtain ⟨hlen, hsorted⟩ := hsh
    refine ⟨?_, ?_, ?_⟩
    · simp only [nodeShape, Bool.and_eq_true, decide_eq_true_eq]
      exact ⟨hlen, hsorted⟩
    · intro b hb hnone
      have hnm := node4_child_none_not_mem hsorted hlen hnone
      simp only [VNodeF.child]
      rw [show List.findIdx? (fun x => decide (x = b)) keys = none from
        List.findIdx?_eq_none_iff.mpr (fun x hx => by
          simp only [decide_eq_false_iff_not]
          exact fun he => hnm (he ▸ hx))]
    · intro x hx
      exact hx
  | node16 keys childs =>
    simp only [VNodeF.grow] at hgrow
    injection hgrow with h2
    subst h2
    simp only [nodeShape, Bool.and_eq_true, decide_eq_true_eq] at hsh
    obtain ⟨hlen, hsorted⟩ := hsh
    simp only [VNodeF.full, decide_eq_true_eq] at hfull
    refine ⟨?_, ?_, ?_⟩
    · simp only [nodeShape, Bool.and_eq_true, decide_eq_true_eq]
      constructor
      · rw [foldl_set_length (fun i => keys.getD i 0) (fun i => i + 1), List.length_replicate]
      · rw [List.length_append, List.length_map, List.length_replicate]
        omega
    · intro b hb hnone
      have hnm := node16_child_none_not_mem hlen hnone
      simp only [VNodeF.child]
      have hz : ((List.range childs.length).foldl
          (fun sl i => sl.set (keys.getD i 0) (i + 1)) (List.replicate 256 0)).getD b 0
          = 0 := by
        rw [foldl_set_getD_of_ne (fun i => keys.getD i 0) (fun i => i + 1) b 0]
        · exact getD_replicate_of_lt hb
        · intro i hi
          rw [List.mem_range] at hi
          have hik : i < keys.length := by omega
          rw [List.getD_eq_getElem?_getD, List.getElem?_eq_getElem hik]
          simp only [Option.getD_some]
          intro he
          exact hnm (he ▸ List.getElem_mem hik)
      rw [hz]
    · intro x hx
      simp only [childList] at hx ⊢
      rw [List.reduceOption_mem_iff] at hx
      rcases List.mem_append.mp hx with hm | hm
      · rw [List.mem_map] at hm
        obtain ⟨y, hy, he⟩ := hm
        injection he with he2
        exact he2 ▸ hy
      · exact absurd (List.eq_of_mem_replicate hm) (by simp)
  | node48 lth slots childs =>
    simp only [VNodeF.grow] at hgrow
    injection hgrow with h2
    subst h2
    simp only [nodeShape, Bool.and_eq_true, decide_eq_true_eq] at hsh
    obtain ⟨hslots, hchilds⟩ := hsh
    refine ⟨?_, ?_, ?_⟩
    · simp only [nodeShape, decide_eq_true_eq]
      rw [List.length_map, List.length_range]
    · intro b hb hnone
      simp only [VNodeF.child] at hnone ⊢
      rw [rangeMap_getD _ _ _ _ hb]
      split at hnone
      next heq =>
        rfl
      next j heq =>
        rw [Option.map_eq_none'] at hnone
        rw [hnone]
        rfl
    · intro x hx
      simp only [childList] at hx ⊢
      rw [List.reduceOption_mem_iff] at hx
      rw [List.mem_map] at hx
      obtain ⟨bb, hbb, he⟩ := hx
      rw [List.reduceOption_mem_iff]
      split at he
      next => cases he
      next j heq => exact getD_some_mem he
  | node256 lth childs => cases hgrow

theorem structOk_leaf {α : Type} (k : Key) (v : α) : structOk (Art.leaf k v) = true := by
  rw [structOk]

theorem structOk_pfx_le {α : Type} {pfx : Key} {nd : VNodeF (Art α)}
    (h : structOk (Art.inner pfx nd) = true) : pfx.length ≤ maxPrefixLen := by
  rw [structOk, Bool.and_eq_true, Bool.and_eq_true] at h
  exact of_decide_eq_true h.1.1

theorem structOk_shape {α : Type} {pfx : Key} {nd : VNodeF (Art α)}
    (h : structOk (Art.inner pfx nd) = true) : nodeShape nd = true := by
  rw [structOk, Bool.and_eq_true, Bool.and_eq_true] at h
  exact h.1.2

theorem structOk_child {α : Type} {pfx : Key} {nd : VNodeF (Art α)} {c : Art α}
    (h : structOk (Art.inner pfx nd) = true) (hm : c ∈ childList nd) :
    structOk c = true := by
  rw [structOk, Bool.and_eq_true] at h
  have h2 := h.2
  rw [List.all_eq_true] at h2
  exact h2 ⟨c, hm⟩ (List.mem_attach _ _)

theorem structOk_inner_intro {α : Type} {pfx : Key} {nd : VNodeF (Art α)}
    (h1 : pfx.length ≤ maxPrefixLen) (h2 : nodeShape nd = true)
    (h3 : ∀ c ∈ childList nd, structOk c = true) :
    structOk (Art.inner pfx nd) = true := by
  rw [structOk, Bool.and_eq_true, Bool.and_eq_true]
  refine ⟨⟨by simpa using h1, h2⟩, ?_⟩
  rw [List.all_eq_true]
  intro c _
  exact h3 c.1 c.2

theorem leafExpand_klen {α : Type} (M : Nat) : ∀ (depth : Nat) (lk k : Key) (lv v : α)
    (n' : Art α), lk.length + 1 - depth ≤ M →
    leafExpand lk lv k v depth = some n' →
    depth + comparePrefix lk k depth depth < k.length := by
  induction M using Nat.strong_induction_on with
  | _ M ih =>
    intro depth lk k lv v n' hM hexp
    rw [leafExpand] at hexp
    by_cases hlt : comparePrefix lk k depth depth < maxPrefixLen
    · rw [if_pos hlt] at hexp
      split at hexp
      next b1 b2 hg1 hg2 => exact get?_some_lt_length hg2
      next => cases hexp
    · rw [if_neg hlt] at hexp
      split at hexp
      next b hgb =>
        rw [Option.map_eq_some'] at hexp
        obtain ⟨sub, hsub, _⟩ := hexp
        have hb : depth + maxPrefixLen < lk.length := get?_some_lt_length hgb
        have ihr := ih (lk.length + 1 - (depth + maxPrefixLen + 1))
          (by simp only [maxPrefixLen] at *; omega)
          (depth + maxPrefixLen + 1) lk k lv v sub (le_refl _) hsub
        have hcmple : comparePrefix lk k depth depth ≤ maxPrefixLen := by
          rw [comparePrefix_eq]
          split
          · omega
          · omega
        simp only [maxPrefixLen] at *
        omega
      next => cases hexp

theorem leafExpand_structOk {α : Type} (M : Nat) : ∀ (depth : Nat) (lk k : Key) (lv v : α)
    (n' : Art α), lk.length + 1 - depth ≤ M →
    leafExpand lk lv k v depth = some n' → structOk n' = true := by
  induction M using Nat.strong_induction_on with
  | _ M ih =>
    intro depth lk k lv v n' hM hexp
    rw [leafExpand] at hexp
    by_cases hlt : comparePrefix lk k depth depth < maxPrefixLen
    · rw [if_pos hlt] at hexp
      split at hexp
      next b1 b2 hg1 hg2 =>
        have hcm := comparePrefix_eq lk k depth depth
        have hlcp : comparePrefix lk k depth depth = lcp (lk.drop depth) (k.drop depth) := by
          by_cases hle : lcp (lk.drop depth) (k.drop depth) ≤ maxPrefixLen
          · rw [hcm, if_pos hle]
          · rw [hcm, if_neg hle] at hlt
            omega
        have hne : b1 ≠ b2 := by
          apply lcp_get?_ne (lk.drop depth) (k.drop depth)
          · rw [List.get?_eq_getElem?, List.getElem?_drop, ← hlcp, ← List.get?_eq_getElem?]
            exact hg1
          · rw [List.get?_eq_getElem?, List.getElem?_drop, ← hlcp, ← List.get?_eq_getElem?]
            exact hg2
        by_cases hord : b2 ≤ b1
        · have hsi : VNodeF.sortedIdx [b1] b2 = 0 := by
            simp [VNodeF.sortedIdx, List.findIdx?_cons, hord]
          simp only [VNodeF.addChild, sortedIdx_nil, List.insertIdx_zero, Option.bind_some,
            Option.some_bind, Option.map_some, Option.map_some', hsi] at hexp
          injection hexp with hexp2
          subst hexp2
          apply structOk_inner_intro
          · exact le_trans (List.length_take_le ..) (by omega)
          · simp only [nodeShape, Bool.and_eq_true, decide_eq_true_eq]
            refine ⟨rfl, ?_⟩
            rw [List.pairwise_cons]
            exact ⟨fun x hx => by rw [List.mem_singleton] at hx; omega,
              List.pairwise_singleton _ _⟩
          · intro c hc
            simp only [childList, List.mem_cons, List.not_mem_nil, or_false] at hc
            rcases hc with h | h <;> (subst h; exact structOk_leaf _ _)
        · have hsi : VNodeF.sortedIdx [b1] b2 = 1 := by
            simp [VNodeF.sortedIdx, List.findIdx?_cons, hord]
          simp only [VNodeF.addChild, sortedIdx_nil, List.insertIdx_zero, Option.bind_some,
            Option.some_bind, Option.map_some, Option.map_some', hsi,
            List.insertIdx_succ_cons] at hexp
          injection hexp with hexp2
          subst hexp2
          apply structOk_inner_intro
          · exact le_trans (List.length_take_le ..) (by omega)
          · simp only [nodeShape, Bool.and_eq_true, decide_eq_true_eq]
            refine ⟨rfl, ?_⟩
            rw [List.pairwise_cons]
            exact ⟨fun x hx => by rw [List.mem_singleton] at hx; omega,
              List.pairwise_singleton _ _⟩
          · intro c hc
            simp only [childList, List.mem_cons, List.not_mem_nil, or_false] at hc
            rcases hc with h | h <;> (subst h; exact structOk_leaf _ _)
      next => cases hexp
    · rw [if_neg hlt] at hexp
      split at hexp
      next b hgb =>
        rw [Option.map_eq_some'] at hexp
        obtain ⟨sub, hsub, hn'⟩ := hexp
        subst hn'
        have hb : depth + maxPrefixLen < lk.length := get?_some_lt_length hgb
        have ihr := ih (lk.length + 1 - (depth + maxPrefixLen + 1))
          (by simp only [maxPrefixLen] at *; omega)
          (depth + maxPrefixLen + 1) lk k lv v sub (le_refl _) hsub
        apply structOk_inner_intro
        · exact List.length_take_le ..
        · simp only [nodeShape, Bool.and_eq_true, decide_eq_true_eq]
          exact ⟨rfl, List.pairwise_singleton _ _⟩
        · intro c hc
          simp only [childList, List.mem_cons, List.not_mem_nil, or_false] at hc
          subst hc
          exact ihr
      next => cases hexp

theorem leafExpand_safe {α : Type} (M : Nat) : ∀ (depth : Nat) (lk k : Key) (lv v : α)
    (n' : Art α), lk.length + 1 - depth ≤ M →
    leafExpand lk lv k v depth = some n' → insertSafeB n' k depth = true := by
  induction M using Nat.strong_induction_on with
  | _ M ih =>
    intro depth lk k lv v n' hM hexp
    rw [leafExpand] at hexp
    by_cases hlt : comparePrefix lk k depth depth < maxPrefixLen
    · rw [if_pos hlt] at hexp
      split at hexp
      next b1 b2 hg1 hg2 =>
        have hcm := comparePrefix_eq lk k depth depth
        have hlcp : comparePrefix lk k depth depth = lcp (lk.drop depth) (k.drop depth) := by
          by_cases hle : lcp (lk.drop depth) (k.drop depth) ≤ maxPrefixLen
          · rw [hcm, if_pos hle]
          · rw [hcm, if_neg hle] at hlt
            omega
        have hXlen : comparePrefix lk k depth depth < (lk.drop depth).length := by
          have := get?_some_lt_length hg1
          rw [List.length_drop]
          omega
        have hPlen : ((lk.drop depth).take (comparePrefix lk k depth depth)).length
            = comparePrefix lk k depth depth := by
          simp only [List.length_take, Nat.min_def]
          split <;> omega
        have hlcpP : lcp ((lk.drop depth).take (comparePrefix lk k depth depth))
            (k.drop depth) = comparePrefix lk k depth depth := by
          rw [lcp_take_left, ← hlcp]
          simp only [Nat.min_def]
          split <;> omega
        have hpeq : comparePrefix ((lk.drop depth).take (comparePrefix lk k depth depth))
            k 0 depth
            = ((lk.drop depth).take (comparePrefix lk k depth depth)).length := by
          rw [comparePrefix_eq, List.drop_zero, hlcpP, if_pos (by omega)]
          exact hPlen.symm
        have hne : b1 ≠ b2 := by
          apply lcp_get?_ne (lk.drop depth) (k.drop depth)
          · rw [List.get?_eq_getElem?, List.getElem?_drop, ← hlcp, ← List.get?_eq_getElem?]
            exact hg1
          · rw [List.get?_eq_getElem?, List.getElem?_drop, ← hlcp, ← List.get?_eq_getElem?]
            exact hg2
        by_cases hord : b2 ≤ b1
        · have hsi : VNodeF.sortedIdx [b1] b2 = 0 := by
            simp [VNodeF.sortedIdx, List.findIdx?_cons, hord]
          simp only [VNodeF.addChild, sortedIdx_nil, List.insertIdx_zero, Option.bind_some,
            Option.some_bind, Option.map_some, Option.map_some', hsi] at hexp
          injection hexp with hexp2
          subst hexp2
          rw [insertSafeB, if_neg (not_not_intro hpeq), hPlen, hg2]
          have hch : VNodeF.child (VNodeF.node4 [b2, b1] [Art.leaf k v, Art.leaf lk lv]) b2
              = some (0, Art.leaf k v) := by
            simp [VNodeF.child, sortedIdx_cons]
          simp only []
          split
          next heq => rw [hch] at heq
          next fst c heq =>
            rw [hch] at heq
            injection heq with heq2
            obtain ⟨h1, h2⟩ := Prod.mk.injEq .. ▸ heq2
            subst h2
            rw [insertSafeB]
            simp
        · have hsi : VNodeF.sortedIdx [b1] b2 = 1 := by
            simp [VNodeF.sortedIdx, List.findIdx?_cons, hord]
          simp only [VNodeF.addChild, sortedIdx_nil, List.insertIdx_zero, Option.bind_some,
            Option.some_bind, Option.map_some, Option.map_some', hsi,
            List.insertIdx_succ_cons] at hexp
          injection hexp with hexp2
          subst hexp2
          rw [insertSafeB, if_neg (not_not_intro hpeq), hPlen, hg2]
          have hch : VNodeF.child (VNodeF.node4 [b1, b2] [Art.leaf lk lv, Art.leaf k v]) b2
              = some (1, Art.leaf k v) := by
            simp [VNodeF.child, sortedIdx_cons, hord]
          simp only []
          split
          next heq => rw [hch] at heq
          next fst c heq =>
            rw [hch] at heq
            injection heq with heq2
            obtain ⟨h1, h2⟩ := Prod.mk.injEq .. ▸ heq2
            subst h2
            rw [insertSafeB]
            simp
      next => cases hexp
    · rw [if_neg hlt] at hexp
      split at hexp
      next b hgb =>
        rw [Option.map_eq_some'] at hexp
        obtain ⟨sub, hsub, hn'⟩ := hexp
        subst hn'
        have hb : depth + maxPrefixLen < lk.length := get?_some_lt_length hgb
        have hcmp8 : comparePrefix lk k depth depth = maxPrefixLen := by
          have hcm := comparePrefix_eq lk k depth depth
          by_cases hle : lcp (lk.drop depth) (k.drop depth) ≤ maxPrefixLen
          · rw [hcm, if_pos hle] at hlt ⊢
            omega
          · rw [hcm, if_neg hle]
        have hlcp8 : maxPrefixLen ≤ lcp (lk.drop depth) (k.drop depth) := by
          have hcm := comparePrefix_eq lk k depth depth
          by_cases hle : lcp (lk.drop depth) (k.drop depth) ≤ maxPrefixLen
          · rw [hcm, if_pos hle] at hcmp8
            omega
          · omega
        have hkb := leafExpand_klen (lk.length + 1 - (depth + maxPrefixLen + 1))
          (depth + maxPrefixLen + 1) lk k lv v sub (le_refl _) hsub
        have hsafe := ih (lk.length + 1 - (depth + maxPrefixLen + 1))
          (by simp only [maxPrefixLen] at *; omega)
          (depth + maxPrefixLen + 1) lk k lv v sub (le_refl _) hsub
        have hPlen : ((lk.drop depth).take maxPrefixLen).length = maxPrefixLen := by
          simp only [List.length_take, List.length_drop, Nat.min_def]
          split <;> omega
        have hlcpP : lcp ((lk.drop depth).take maxPrefixLen) (k.drop depth)
            = maxPrefixLen := by
          rw [lcp_take_left]
          simp only [Nat.min_def]
          split <;> omega
        have hpeq : comparePrefix ((lk.drop depth).take maxPrefixLen) k 0 depth
            = ((lk.drop depth).take maxPrefixLen).length := by
          rw [comparePrefix_eq, List.drop_zero, hlcpP, if_pos (le_refl _)]
          exact hPlen.symm
        obtain ⟨b2, hg2⟩ : ∃ b2, k.get? (depth + maxPrefixLen) = some b2 := by
          rcases hg : k.get? (depth + maxPrefixLen) with _ | b2
          · rw [List.get?_eq_none] at hg
            simp only [maxPrefixLen] at *
            omega
          · exact ⟨b2, rfl⟩
        rw [insertSafeB, if_neg (not_not_intro hpeq), hPlen, hg2]
        simp only []
        by_cases hbb : b2 = b
        · subst hbb
          have hch : VNodeF.child (VNodeF.node4 [b2] [sub]) b2 = some (0, sub) := by
            simp [VNodeF.child, sortedIdx_cons]
          split
          next heq => rw [hch] at heq
          next fst c heq =>
            rw [hch] at heq
            injection heq with heq2
            obtain ⟨h1, h2⟩ := Prod.mk.injEq .. ▸ heq2
            subst h2
            exact hsafe
        · have hch : VNodeF.child (VNodeF.node4 [b] [sub]) b2 = none := by
            by_cases hord2 : b2 ≤ b
            · simp [VNodeF.child, sortedIdx_cons, hord2, Ne.symm hbb]
            · simp [VNodeF.child, sortedIdx_cons, hord2, sortedIdx_nil]
          split
          next heq => rfl
          next fst c heq =>
            rw [hch] at heq
            exact Option.noConfusion heq
      next => cases hexp

theorem insert_structOk {α : Type} (N : Nat) : ∀ (n : Art α), sizeOf n ≤ N →
    ∀ (k : Key) (v : α) (depth : Nat) (n' : Art α), (∀ x ∈ k, x < 256) →
    structOk n = true → artInsert n k v depth = some n' → structOk n' = true := by
  induction N using Nat.strong_induction_on with
  | _ N ih =>
    intro n hsz k v depth n' hbytes hok hins
    match n with
    | .leaf lk lv =>
      rw [artInsert, leafInsert] at hins
      split at hins
      next heq =>
        injection hins with hins2
        subst hins2
        exact structOk_leaf _ _
      next hne =>
        exact leafExpand_structOk (lk.length + 1 - depth) depth lk k lv v n'
          (le_refl _) hins
    | .inner pfx nd =>
      have hpfx8 := structOk_pfx_le hok
      rw [artInsert] at hins
      by_cases hcm : comparePrefix pfx k 0 depth ≠ pfx.length
      · rw [if_pos hcm] at hins
        split at hins
        next kb pb hkb hpb =>
          have hcmlt : comparePrefix pfx k 0 depth < pfx.length := get?_some_lt_length hpb
          have hlcp : comparePrefix pfx k 0 depth = lcp pfx (k.drop depth) := by
            have hcm2 := comparePrefix_eq pfx k 0 depth
            rw [List.drop_zero] at hcm2
            by_cases hle : lcp pfx (k.drop depth) ≤ maxPrefixLen
            · rw [hcm2, if_pos hle]
            · rw [hcm2, if_neg hle] at hcmlt
              simp only [maxPrefixLen] at *
              omega
          have hne2 : pb ≠ kb := by
            apply lcp_get?_ne pfx (k.drop depth)
            · rw [← hlcp]
              exact hpb
            · rw [List.get?_eq_getElem?, List.getElem?_drop, ← hlcp,
                ← List.get?_eq_getElem?]
              exact hkb
          have holdOk : structOk (Art.inner (pfx.drop (comparePrefix pfx k 0 depth + 1))
              nd) = true := by
            apply structOk_inner_intro
            · rw [List.length_drop]
              omega
            · exact structOk_shape hok
            · intro c hc
              exact structOk_child hok hc
          have hpfxTake : (pfx.take (comparePrefix pfx k 0 depth)).length
              ≤ maxPrefixLen :=
            le_trans (List.length_take_le ..) (by omega)
          by_cases hord : pb ≤ kb
          · have hsi : VNodeF.sortedIdx [kb] pb = 0 := by
              simp [VNodeF.sortedIdx, List.findIdx?_cons, hord]
            simp only [VNodeF.addChild, sortedIdx_nil, List.insertIdx_zero,
              Option.bind_some, Option.some_bind, Option.map_some, Option.map_some',
              hsi] at hins
            injection hins with hins2
            subst hins2
            apply structOk_inner_intro hpfxTake
            · simp only [nodeShape, Bool.and_eq_true, decide_eq_true_eq]
              refine ⟨rfl, ?_⟩
              rw [List.pairwise_cons]
              exact ⟨fun x hx => by rw [List.mem_singleton] at hx; omega,
                List.pairwise_singleton _ _⟩
            · intro c hc
              simp only [childList, List.mem_cons, List.not_mem_nil, or_false] at hc
              rcases hc with h | h
              · subst h
                exact holdOk
              · subst h
                exact structOk_leaf _ _
          · have hsi : VNodeF.sortedIdx [kb] pb = 1 := by
              simp [VNodeF.sortedIdx, List.findIdx?_cons, hord]
            simp only [VNodeF.addChild, sortedIdx_nil, List.insertIdx_zero,
              Option.bind_some, Option.some_bind, Option.map_some, Option.map_some',
              hsi, List.insertIdx_succ_cons] at hins
            injection hins with hins2
            subst hins2
            apply structOk_inner_intro hpfxTake
            · simp only [nodeShape, Bool.and_eq_true, decide_eq_true_eq]
              refine ⟨rfl, ?_⟩
              rw [List.pairwise_cons]
              exact ⟨fun x hx => by rw [List.mem_singleton] at hx; omega,
                List.pairwise_singleton _ _⟩
            · intro c hc
              simp only [childList, List.mem_cons, List.not_mem_nil, or_false] at hc
              rcases hc with h | h
              · subst h
                exact structOk_leaf _ _
              · subst h
                exact holdOk
        next => cases hins
      · rw [if_neg hcm] at hins
        split at hins
        next => cases hins
        next b hgb =>
          have hb256 : b < 256 := hbytes b (List.get?_mem hgb)
          split at hins
          next hchn =>
            rcases hnd1e : (if nd.full = true then nd.grow else some nd) with _ | nd1
            · rw [hnd1e] at hins
              cases hins
            · rw [hnd1e] at hins
              simp only [Option.some_bind] at hins
              have hnd1 : nodeShape nd1 = true ∧ nd1.child b = none ∧
                  (∀ x, x ∈ childList nd1 → x ∈ childList nd) := by
                by_cases hfull : nd.full = true
                · rw [if_pos hfull] at hnd1e
                  obtain ⟨h1, h2, h3⟩ := grow_spec (structOk_shape hok) hfull hnd1e
                  exact ⟨h1, h2 b hb256 hchn, h3⟩
                · rw [if_neg hfull] at hnd1e
                  injection hnd1e with hnd1e2
                  subst hnd1e2
                  exact ⟨structOk_shape hok, hchn, fun x hx => hx⟩
              obtain ⟨hsh1, hnone1, hsub1⟩ := hnd1
              rcases hadd : nd1.addChild b (Art.leaf k v) with _ | nd2
              · rw [hadd] at hins
                cases hins
              · rw [hadd] at hins
                simp only [Option.map_some'] at hins
                injection hins with hins2
                subst hins2
                obtain ⟨hsh2, _, hsub2⟩ := addChild_spec hsh1 hb256 hnone1 hadd
                apply structOk_inner_intro hpfx8 hsh2
                intro c hc
                rcases hsub2 c hc with h | h
                · subst h
                  exact structOk_leaf _ _
                · exact structOk_child hok (hsub1 c h)
          next idx c hch =>
            split at hins
            next lk2 lv2 =>
              rcases hrepl : leafInsert lk2 lv2 k v (depth + pfx.length + 1) with _ | repl
              · rw [hrepl] at hins
                cases hins
              · rw [hrepl] at hins
                simp only [Option.some_bind] at hins
                rcases hrep : nd.replace idx (some repl) with _ | nd1
                · rw [hrep] at hins
                  cases hins
                · rw [hrep] at hins
                  simp only [Option.map_some'] at hins
                  injection hins with hins2
                  subst hins2
                  have hreplOk : structOk repl = true := by
                    rw [leafInsert] at hrepl
                    split at hrepl
                    next =>
                      injection hrepl with h2
                      subst h2
                      exact structOk_leaf _ _
                    next => exact leafExpand_structOk (lk2.length + 1 -
                      (depth + pfx.length + 1)) _ lk2 k lv2 v repl (le_refl _) hrepl
                  obtain ⟨hch1, hshEq, hsub1⟩ := replace_some_spec hch hrep
                  apply structOk_inner_intro hpfx8 (hshEq ▸ structOk_shape hok)
                  intro x hx
                  rcases hsub1 x hx with h | h
                  · subst h
                    exact hreplOk
                  · exact structOk_child hok h
            next cpfx cnd =>
              rcases hc2 : artInsert (Art.inner cpfx cnd) k v (depth + pfx.length + 1)
                  with _ | c2
              · rw [hc2] at hins
                cases hins
              · rw [hc2] at hins
                simp only [Option.some_bind] at hins
                rcases hrep : nd.replace idx (some c2) with _ | nd1
                · rw [hrep] at hins
                  cases hins
                · rw [hrep] at hins
                  simp only [Option.map_some'] at hins
                  injection hins with hins2
                  subst hins2
                  have hszc := sizeOf_child_lt hch
                  have hszN : sizeOf (Art.inner cpfx cnd) < N := by
                    simp only [Art.inner.sizeOf_spec] at hsz
                    omega
                  have hc2Ok : structOk c2 = true :=
                    ih (sizeOf (Art.inner cpfx cnd)) hszN _ (le_refl _) k v
                      (depth + pfx.length + 1) c2 hbytes
                      (structOk_child hok (mem_childList_of_child hch)) hc2
                  obtain ⟨hch1, hshEq, hsub1⟩ := replace_some_spec hch hrep
                  apply structOk_inner_intro hpfx8 (hshEq ▸ structOk_shape hok)
                  intro x hx
                  rcases hsub1 x hx with h | h
                  · subst h
                    exact hc2Ok
                  · exact structOk_child hok h

theorem insert_safe {α : Type} (N : Nat) : ∀ (n : Art α), sizeOf n ≤ N →
    ∀ (k : Key) (v : α) (depth : Nat) (n' : Art α), (∀ x ∈ k, x < 256) →
    structOk n = true → artInsert n k v depth = some n' → insertSafeB n' k depth = true := by
  induction N using Nat.strong_induction_on with
  | _ N ih =>
    intro n hsz k v depth n' hbytes hok hins
    match n with
    | .leaf lk lv =>
      rw [artInsert, leafInsert] at hins
      split at hins
      next heq =>
        injection hins with hins2
        subst hins2
        rw [insertSafeB]
        simp
      next hne =>
        exact leafExpand_safe (lk.length + 1 - depth) depth lk k lv v n'
          (le_refl _) hins
    | .inner pfx nd =>
      have hpfx8 := structOk_pfx_le hok
      rw [artInsert] at hins
      by_cases hcm : comparePrefix pfx k 0 depth ≠ pfx.length
      · rw [if_pos hcm] at hins
        split at hins
        next kb pb hkb hpb =>
          have hcmlt : comparePrefix pfx k 0 depth < pfx.length := get?_some_lt_length hpb
          have hlcp : comparePrefix pfx k 0 depth = lcp pfx (k.drop depth) := by
            have hcm2 := comparePrefix_eq pfx k 0 depth
            rw [List.drop_zero] at hcm2
            by_cases hle : lcp pfx (k.drop depth) ≤ maxPrefixLen
            · rw [hcm2, if_pos hle]
            · rw [hcm2, if_neg hle] at hcmlt
              simp only [maxPrefixLen] at *
              omega
          have hne2 : pb ≠ kb := by
            apply lcp_get?_ne pfx (k.drop depth)
            · rw [← hlcp]
              exact hpb
            · rw [List.get?_eq_getElem?, List.getElem?_drop, ← hlcp,
                ← List.get?_eq_getElem?]
              exact hkb
          have hPlen : (pfx.take (comparePrefix pfx k 0 depth)).length
              = comparePrefix pfx k 0 depth := by
            simp only [List.length_take, Nat.min_def]
            split <;> omega
          have hpeq : comparePrefix (pfx.take (comparePrefix pfx k 0 depth)) k 0 depth
              = (pfx.take (comparePrefix pfx k 0 depth)).length := by
            rw [comparePrefix_eq, List.drop_zero, lcp_take_left, ← hlcp]
            rw [show Nat.min (comparePrefix pfx k 0 depth) (comparePrefix pfx k 0 depth)
              = comparePrefix pfx k 0 depth from by simp [Nat.min_def]]
            rw [if_pos (by omega), hPlen]
          by_cases hord : pb ≤ kb
          · have hsi : VNodeF.sortedIdx [kb] pb = 0 := by
              simp [VNodeF.sortedIdx, List.findIdx?_cons, hord]
            simp only [VNodeF.addChild, sortedIdx_nil, List.insertIdx_zero,
              Option.bind_some, Option.some_bind, Option.map_some, Option.map_some',
              hsi] at hins
            injection hins with hins2
            subst hins2
            rw [insertSafeB, if_neg (not_not_intro hpeq), hPlen, hkb]
            have hch2 : VNodeF.child (VNodeF.node4 [pb, kb]
                [Art.inner (pfx.drop (comparePrefix pfx k 0 depth + 1)) nd,
                 Art.leaf k v]) kb = some (1, Art.leaf k v) := by
              simp [VNodeF.child, sortedIdx_cons, show ¬ kb ≤ pb from by omega]
            simp only []
            split
            next heq =>
              rw [hch2] at heq
            next fst c heq =>
              rw [hch2] at heq
              injection heq with heq2
              obtain ⟨h1, h2⟩ := Prod.mk.injEq .. ▸ heq2
              subst h2
              rw [insertSafeB]
              simp
          · have hsi : VNodeF.sortedIdx [kb] pb = 1 := by
              simp [VNodeF.sortedIdx, List.findIdx?_cons, hord]
            simp only [VNodeF.addChild, sortedIdx_nil, List.insertIdx_zero,
              Option.bind_some, Option.some_bind, Option.map_some, Option.map_some',
              hsi, List.insertIdx_succ_cons] at hins
            injection hins with hins2
            subst hins2
            rw [insertSafeB, if_neg (not_not_intro hpeq), hPlen, hkb]
            have hch2 : VNodeF.child (VNodeF.node4 [kb, pb]
                [Art.leaf k v,
                 Art.inner (pfx.drop (comparePrefix pfx k 0 depth + 1)) nd]) kb
                = some (0, Art.leaf k v) := by
              simp [VNodeF.child, sortedIdx_cons]
            simp only []
            split
            next heq =>
              rw [hch2] at heq
            next fst c heq =>
              rw [hch2] at heq
              injection heq with heq2
              obtain ⟨h1, h2⟩ := Prod.mk.injEq .. ▸ heq2
              subst h2
              rw [insertSafeB]
              simp
        next => cases hins
      · rw [if_neg hcm] at hins
        have hcmEq := not_not.mp hcm
        split at hins
        next => cases hins
        next b hgb =>
          have hb256 : b < 256 := hbytes b (List.get?_mem hgb)
          split at hins
          next hchn =>
            rcases hnd1e : (if nd.full = true then nd.grow else some nd) with _ | nd1
            · rw [hnd1e] at hins
              cases hins
            · rw [hnd1e] at hins
              simp only [Option.some_bind] at hins
              have hnd1 : nodeShape nd1 = true ∧ nd1.child b = none := by
                by_cases hfull : nd.full = true
                · rw [if_pos hfull] at hnd1e
                  obtain ⟨h1, h2, _⟩ := grow_spec (structOk_shape hok) hfull hnd1e
                  exact ⟨h1, h2 b hb256 hchn⟩
                · rw [if_neg hfull] at hnd1e
                  injection hnd1e with hnd1e2
                  subst hnd1e2
                  exact ⟨structOk_shape hok, hchn⟩
              obtain ⟨hsh1, hnone1⟩ := hnd1
              rcases hadd : nd1.addChild b (Art.leaf k v) with _ | nd2
              · rw [hadd] at hins
                cases hins
              · rw [hadd] at hins
                simp only [Option.map_some'] at hins
                injection hins with hins2
                subst hins2
                obtain ⟨_, ⟨j, hch2⟩, _⟩ := addChild_spec hsh1 hb256 hnone1 hadd
                rw [insertSafeB, if_neg (not_not_intro hcmEq), hgb]
                simp only []
                split
                next heq =>
                  rw [hch2] at heq
                next fst c heq =>
                  rw [hch2] at heq
                  injection heq with heq2
                  obtain ⟨h1, h2⟩ := Prod.mk.injEq .. ▸ heq2
                  subst h2
                  rw [insertSafeB]
                  simp
          next idx c hch =>
            split at hins
            next lk2 lv2 =>
              rcases hrepl : leafInsert lk2 lv2 k v (depth + pfx.length + 1) with _ | repl
              · rw [hrepl] at hins
                cases hins
              · rw [hrepl] at hins
                simp only [Option.some_bind] at hins
                rcases hrep : nd.replace idx (some repl) with _ | nd1
                · rw [hrep] at hins
                  cases hins
                · rw [hrep] at hins
                  simp only [Option.map_some'] at hins
                  injection hins with hins2
                  subst hins2
                  have hreplSafe : insertSafeB repl k (depth + pfx.length + 1) = true := by
                    rw [leafInsert] at hrepl
                    split at hrepl
                    next =>
                      injection hrepl with h2
                      subst h2
                      rw [insertSafeB]
                      simp
                    next =>
                      exact leafExpand_safe (lk2.length + 1 - (depth + pfx.length + 1))
                        _ lk2 k lv2 v repl (le_refl _) hrepl
                  obtain ⟨hch1, _, _⟩ := replace_some_spec hch hrep
                  rw [insertSafeB, if_neg (not_not_intro hcmEq), hgb]
                  simp only []
                  split
                  next heq =>
                    rw [hch1] at heq
                  next fst c2 heq =>
                    rw [hch1] at heq
                    injection heq with heq2
                    obtain ⟨h1, h2⟩ := Prod.mk.injEq .. ▸ heq2
                    subst h2
                    exact hreplSafe
            next cpfx cnd =>
              rcases hc2 : artInsert (Art.inner cpfx cnd) k v (depth + pfx.length + 1)
                  with _ | c2
              · rw [hc2] at hins
                cases hins
              · rw [hc2] at hins
                simp only [Option.some_bind] at hins
                rcases hrep : nd.replace idx (some c2) with _ | nd1
                · rw [hrep] at hins
                  cases hins
                · rw [hrep] at hins
                  simp only [Option.map_some'] at hins
                  injection hins with hins2
                  subst hins2
                  have hszc := sizeOf_child_lt hch
                  have hszN : sizeOf (Art.inner cpfx cnd) < N := by
                    simp only [Art.inner.sizeOf_spec] at hsz
                    omega
                  have hc2Safe : insertSafeB c2 k (depth + pfx.length + 1) = true :=
                    ih (sizeOf (Art.inner cpfx cnd)) hszN _ (le_refl _) k v
                      (depth + pfx.length + 1) c2 hbytes
                      (structOk_child hok (mem_childList_of_child hch)) hc2
                  obtain ⟨hch1, _, _⟩ := replace_some_spec hch hrep
                  rw [insertSafeB, if_neg (not_not_intro hcmEq), hgb]
                  simp only []
                  split
                  next heq =>
                    rw [hch1] at heq
                  next fst c3 heq =>
                    rw [hch1] at heq
                    injection heq with heq2
                    obtain ⟨h1, h2⟩ := Prod.mk.injEq .. ▸ heq2
                    subst h2
                    exact hc2Safe

theorem insert_get_of_safe {α : Type} (N : Nat) : ∀ (n : Art α), sizeOf n ≤ N →
    ∀ (k : Key) (v : α) (depth : Nat) (n' : Art α), (∀ x ∈ k, x < 256) →
    structOk n = true → insertSafeB n k depth = true →
    artInsert n k v depth = some n' → artGet n' k depth = some (some v) := by
  induction N using Nat.strong_induction_on with
  | _ N ih =>
    intro n hsz k v depth n' hbytes hok hsafe hins
    match n with
    | .leaf lk lv =>
      rw [insertSafeB] at hsafe
      rw [decide_eq_true_eq] at hsafe
      rw [artInsert, leafInsert, if_pos hsafe.symm] at hins
      injection hins with hins2
      subst hins2
      rw [artGet]
      simp
    | .inner pfx nd =>
      have hpfx8 := structOk_pfx_le hok
      rw [artInsert] at hins
      by_cases hcm : comparePrefix pfx k 0 depth ≠ pfx.length
      · rw [if_pos hcm] at hins
        split at hins
        next kb pb hkb hpb =>
          have hcmlt : comparePrefix pfx k 0 depth < pfx.length := get?_some_lt_length hpb
          have hlcp : comparePrefix pfx k 0 depth = lcp pfx (k.drop depth) := by
            have hcm2 := comparePrefix_eq pfx k 0 depth
            rw [List.drop_zero] at hcm2
            by_cases hle : lcp pfx (k.drop depth) ≤ maxPrefixLen
            · rw [hcm2, if_pos hle]
            · rw [hcm2, if_neg hle] at hcmlt
              simp only [maxPrefixLen] at *
              omega
          have hne2 : pb ≠ kb := by
            apply lcp_get?_ne pfx (k.drop depth)
            · rw [← hlcp]
              exact hpb
            · rw [List.get?_eq_getElem?, List.getElem?_drop, ← hlcp,
                ← List.get?_eq_getElem?]
              exact hkb
          have hPlen : (pfx.take (comparePrefix pfx k 0 depth)).length
              = comparePrefix pfx k 0 depth := by
            simp only [List.length_take, Nat.min_def]
            split <;> omega
          have hpeq : comparePrefix (pfx.take (comparePrefix pfx k 0 depth)) k 0 depth
              = (pfx.take (comparePrefix pfx k 0 depth)).length := by
            rw [comparePrefix_eq, List.drop_zero, lcp_take_left, ← hlcp]
            rw [show Nat.min (comparePrefix pfx k 0 depth) (comparePrefix pfx k 0 depth)
              = comparePrefix pfx k 0 depth from by simp [Nat.min_def]]
            rw [if_pos (by omega), hPlen]
          by_cases hord : pb ≤ kb
          · have hsi : VNodeF.sortedIdx [kb] pb = 0 := by
              simp [VNodeF.sortedIdx, List.findIdx?_cons, hord]
            simp only [VNodeF.addChild, sortedIdx_nil, List.insertIdx_zero,
              Option.bind_some, Option.some_bind, Option.map_some, Option.map_some',
              hsi] at hins
            injection hins with hins2
            subst hins2
            rw [artGet, if_neg (not_not_intro hpeq), hPlen, hkb]
            have hch2 : VNodeF.child (VNodeF.node4 [pb, kb]
                [Art.inner (pfx.drop (comparePrefix pfx k 0 depth + 1)) nd,
                 Art.leaf k v]) kb = some (1, Art.leaf k v) := by
              simp [VNodeF.child, sortedIdx_cons, show ¬ kb ≤ pb from by omega]
            simp only []
            split
            next heq =>
              rw [hch2] at heq
              exact Option.noConfusion heq
            next fst c heq =>
              rw [hch2] at heq
              injection heq with heq2
              obtain ⟨h1, h2⟩ := Prod.mk.injEq .. ▸ heq2
              subst h2
              rw [artGet]
              simp
          · have hsi : VNodeF.sortedIdx [kb] pb = 1 := by
              simp [VNodeF.sortedIdx, List.findIdx?_cons, hord]
            simp only [VNodeF.addChild, sortedIdx_nil, List.insertIdx_zero,
              Option.bind_some, Option.some_bind, Option.map_some, Option.map_some',
              hsi, List.insertIdx_succ_cons] at hins
            injection hins with hins2
            subst hins2
            rw [artGet, if_neg (not_not_intro hpeq), hPlen, hkb]
            have hch2 : VNodeF.child (VNodeF.node4 [kb, pb]
                [Art.leaf k v,
                 Art.inner (pfx.drop (comparePrefix pfx k 0 depth + 1)) nd]) kb
                = some (0, Art.leaf k v) := by
              simp [VNodeF.child, sortedIdx_cons]
            simp only []
            split
            next heq =>
              rw [hch2] at heq
              exact Option.noConfusion heq
            next fst c heq =>
              rw [hch2] at heq
              injection heq with heq2
              obtain ⟨h1, h2⟩ := Prod.mk.injEq .. ▸ heq2
              subst h2
              rw [artGet]
              simp
        next => cases hins
      · rw [if_neg hcm] at hins
        have hcmEq := not_not.mp hcm
        split at hins
        next => cases hins
        next b hgb =>
          have hb256 : b < 256 := hbytes b (List.get?_mem hgb)
          split at hins
          next hchn =>
            rcases hnd1e : (if nd.full = true then nd.grow else some nd) with _ | nd1
            · rw [hnd1e] at hins
              cases hins
            · rw [hnd1e] at hins
              simp only [Option.some_bind] at hins
              have hnd1 : nodeShape nd1 = true ∧ nd1.child b = none := by
                by_cases hfull : nd.full = true
                · rw [if_pos hfull] at hnd1e
                  obtain ⟨h1, h2, _⟩ := grow_spec (structOk_shape hok) hfull hnd1e
                  exact ⟨h1, h2 b hb256 hchn⟩
                · rw [if_neg hfull] at hnd1e
                  injection hnd1e with hnd1e2
                  subst hnd1e2
                  exact ⟨structOk_shape hok, hchn⟩
              obtain ⟨hsh1, hnone1⟩ := hnd1
              rcases hadd : nd1.addChild b (Art.leaf k v) with _ | nd2
              · rw [hadd] at hins
                cases hins
              · rw [hadd] at hins
                simp only [Option.map_some'] at hins
                injection hins with hins2
                subst hins2
                obtain ⟨_, ⟨j, hch2⟩, _⟩ := addChild_spec hsh1 hb256 hnone1 hadd
                rw [artGet, if_neg (not_not_intro hcmEq), hgb]
                simp only []
                split
                next heq =>
                  rw [hch2] at heq
                  exact Option.noConfusion heq
                next fst c heq =>
                  rw [hch2] at heq
                  injection heq with heq2
                  obtain ⟨h1, h2⟩ := Prod.mk.injEq .. ▸ heq2
                  subst h2
                  rw [artGet]
                  simp
          next idx c hch =>
            rw [insertSafeB, if_neg (not_not_intro hcmEq), hgb] at hsafe
            simp only [] at hsafe
            split at hsafe
            next heqs =>
              rw [hch] at heqs
              exact Option.noConfusion heqs
            next fsts c0 heqs =>
              rw [hch] at heqs
              injection heqs with heqs2
              obtain ⟨hs1, hs2⟩ := Prod.mk.injEq .. ▸ heqs2
              subst hs2
              split at hins
              next lk2 lv2 =>
                rw [insertSafeB, decide_eq_true_eq] at hsafe
                rcases hrepl : leafInsert lk2 lv2 k v (depth + pfx.length + 1)
                    with _ | repl
                · rw [hrepl] at hins
                  cases hins
                · rw [hrepl] at hins
                  simp only [Option.some_bind] at hins
                  rcases hrep : nd.replace idx (some repl) with _ | nd1
                  · rw [hrep] at hins
                    cases hins
                  · rw [hrep] at hins
                    simp only [Option.map_some'] at hins
                    injection hins with hins2
                    subst hins2
                    rw [leafInsert, if_pos hsafe.symm] at hrepl
                    injection hrepl with hrepl2
                    subst hrepl2
                    obtain ⟨hch1, _, _⟩ := replace_some_spec hch hrep
                    rw [artGet, if_neg (not_not_intro hcmEq), hgb]
                    simp only []
                    split
                    next heq =>
                      rw [hch1] at heq
                      exact Option.noConfusion heq
                    next fst c2 heq =>
                      rw [hch1] at heq
                      injection heq with heq2
                      obtain ⟨h1, h2⟩ := Prod.mk.injEq .. ▸ heq2
                      subst h2
                      rw [artGet]
                      simp
              next cpfx cnd =>
                rcases hc2 : artInsert (Art.inner cpfx cnd) k v (depth + pfx.length + 1)
                    with _ | c2
                · rw [hc2] at hins
                  cases hins
                · rw [hc2] at hins
                  simp only [Option.some_bind] at hins
                  rcases hrep : nd.replace idx (some c2) with _ | nd1
                  · rw [hrep] at hins
                    cases hins
                  · rw [hrep] at hins
                    simp only [Option.map_some'] at hins
                    injection hins with hins2
                    subst hins2
                    have hszc := sizeOf_child_lt hch
                    have hszN : sizeOf (Art.inner cpfx cnd) < N := by
                      simp only [Art.inner.sizeOf_spec] at hsz
                      omega
                    have hget2 : artGet c2 k (depth + pfx.length + 1) = some (some v) :=
                      ih (sizeOf (Art.inner cpfx cnd)) hszN _ (le_refl _) k v
                        (depth + pfx.length + 1) c2 hbytes
                        (structOk_child hok (mem_childList_of_child hch)) hsafe hc2
                    obtain ⟨hch1, _, _⟩ := replace_some_spec hch hrep
                    rw [artGet, if_neg (not_not_intro hcmEq), hgb]
                    simp only []
                    split
                    next heq =>
                      rw [hch1] at heq
                      exact Option.noConfusion heq
                    next fst c3 heq =>
                      rw [hch1] at heq
                      injection heq with heq2
                      obtain ⟨h1, h2⟩ := Prod.mk.injEq .. ▸ heq2
                      subst h2
                      exact hget2

/-- C3 counterexample: the claim quantifies over every tree state and every
non-empty key, but on the reachable tree holding only the key `[1, 2]`,
`Insert([1], v1)` panics (the leaf expansion reads `key[depth+cmp]` past
the end of the new key), so the promised `Get(k) = (v2, true)` is never
reached. -/
theorem c3_insert_prefix_key_panics :
    (Tree.mk (some (Art.leaf [1, 2] (0 : Nat)))).Insert [1] 5 = none := by
  simp [Tree.Insert, artInsert, leafInsert, leafExpand, comparePrefix, cpGo, maxPrefixLen]

/-- C3 (amended): on a structurally well-formed tree (every API-reachable
tree is) and a byte-string key, if `Insert(k, v1)` and then `Insert(k, v2)`
both return without panicking, `Get(k)` returns `(v2, true)`.  The second
insert always finds the position the first insert left for `k` — a `k`
leaf, a prefix divergence, or an absent child slot — overwrites or adds
its leaf there, and `Get` retraces exactly that descent. -/
theorem c3_insert_insert_overwrites {α : Type} (t : Tree α) (k : Key) (v1 v2 : α)
    (t1 t2 : Tree α) (hbytes : ∀ x ∈ k, x < 256) (hok : structOkT t = true)
    (h1 : t.Insert k v1 = some t1) (h2 : t1.Insert k v2 = some t2) :
    t2.Get k = some (some v2) := by
  rw [Tree.Insert] at h1 h2
  rw [Tree.Get]
  rcases hr : t.root with _ | r
  · rw [hr] at h1
    injection h1 with h1b
    subst h1b
    simp only [] at h2
    rw [artInsert, leafInsert, if_pos rfl] at h2
    simp only [Option.map_some'] at h2
    injection h2 with h2b
    subst h2b
    simp only []
    rw [artGet]
    simp
  · rw [hr] at h1
    simp only [] at h1
    rcases hr1 : artInsert r k v1 0 with _ | r1
    · rw [hr1] at h1
      cases h1
    · rw [hr1] at h1
      simp only [Option.map_some'] at h1
      injection h1 with h1b
      subst h1b
      rw [structOkT, hr] at hok
      have hok1 : structOk r1 = true :=
        insert_structOk (sizeOf r) r (le_refl _) k v1 0 r1 hbytes hok hr1
      have hsafe1 : insertSafeB r1 k 0 = true :=
        insert_safe (sizeOf r) r (le_refl _) k v1 0 r1 hbytes hok hr1
      simp only [] at h2
      rcases hr2 : artInsert r1 k v2 0 with _ | r2
      · rw [hr2] at h2
        cases h2
      · rw [hr2] at h2
        simp only [Option.map_some'] at h2
        injection h2 with h2b
        subst h2b
        simp only []
        exact insert_get_of_safe (sizeOf r1) r1 (le_refl _) k v2 0 r2 hbytes hok1
          hsafe1 hr2

/-- Witness for the amended C3 on the empty tree and key `[7]`. -/
theorem c3_insert_insert_overwrites_witness :
    (∀ x ∈ ([7] : Key), x < 256) ∧ structOkT (⟨none⟩ : Tree Nat) = true ∧
    (Tree.mk none : Tree Nat).Insert [7] 1 = some ⟨some (Art.leaf [7] 1)⟩ ∧
    (Tree.mk (some (Art.leaf [7] 1)) : Tree Nat).Insert [7] 2
      = some ⟨some (Art.leaf [7] 2)⟩ ∧
    (Tree.mk (some (Art.leaf [7] 2)) : Tree Nat).Get [7] = some (some 2) :=
  ⟨by decide, rfl, rfl, by simp [Tree.Insert, artInsert, leafInsert],
   c3_insert_insert_overwrites (Tree.mk none) [7] 1 2 _ _ (by decide) rfl rfl
     (by simp [Tree.Insert, artInsert, leafInsert])⟩

end ArtModel
